import Mathlib

/-!
Verification of the mbbot URL-rewrite engine (`src/url.go`, `src/rel.go`).

Go strings are modelled as `List Char` (`Str`); Go `int` as `Int`; the Go
`map[string]string` of request parameters as an association list with
replace-or-append insertion (matching Go map assignment and `len`).
The four compiled regular expressions of `urlRewrites` are modelled as
anchored matching functions over `Str` returning the capture-group list
(`ms`, with `ms[0]` the whole input), written to follow the leftmost-first
semantics of Go's regexp package on these particular patterns.
The Go `rewriteMap` (a map iterated in unspecified order) is modelled as a
list in source order; order-independence is proved separately.
-/

set_option maxHeartbeats 1000000

abbrev Str := List Char

def str (s : String) : Str := s.toList

/-- `date` from rel.go: `type date struct{ year, month, day int }`. -/
structure date where
  year : Int
  month : Int
  day : Int
deriving DecidableEq, Repr, Inhabited

/-- `(d *date) empty()` from rel.go. -/
def date.empty (d : date) : Bool := d.year == 0 && d.month == 0 && d.day == 0

/-- `relInfo` from rel.go. -/
structure relInfo where
  id : Int
  linkTypeID : Int
  linkPhrase : Str
  beginDate : date
  endDate : date
  ended : Bool
  backward : Bool
  targetMBID : Str
  targetName : Str
  targetType : Str
deriving DecidableEq, Repr, Inhabited

/-- `urlInfo` from entity.go. -/
structure urlInfo where
  url : Str
  rels : List relInfo
deriving DecidableEq, Repr, Inhabited

/-- `rewriteResult` from url.go. -/
structure rewriteResult where
  rewritten : Str
  updatedRels : List relInfo
  newURLs : List urlInfo
  editNote : Str
deriving DecidableEq, Repr, Inhabited

/-- `filterRels` from rel.go: relationships to targets of the given type. -/
def filterRels (rels : List relInfo) (entityType : Str) : List relInfo :=
  rels.filter (fun rel => rel.targetType == entityType)

/-! ### String helpers used by the regexp models -/

/-- Strip a literal pattern from the front of a string
(`stripPre pat s = some rest` iff `s = pat ++ rest`). -/
def stripPre : Str → Str → Option Str
  | [], s => some s
  | _ :: _, [] => none
  | p :: ps, c :: cs => if p == c then stripPre ps cs else none

/-- First pattern of a list that is a prefix of `s`; models an anchored
regexp alternation of literals (the alternatives used here are pairwise
non-prefix-compatible, so at most one can apply). -/
def stripFirst : List Str → Str → Option Str
  | [], _ => none
  | p :: ps, s =>
    match stripPre p s with
    | some r => some r
    | none => stripFirst ps s

/-- `https?://`: both http:// and https:// (the two literal forms are
mutually exclusive prefixes). -/
def stripScheme (s : Str) : Option Str :=
  match stripPre (str "https://") s with
  | some r => some r
  | none => stripPre (str "http://") s

/-- `.` in these patterns: any character but a newline. -/
def dotChar (c : Char) : Bool := c != '\n'

/-- `/.*$`: a slash followed by anything without a newline. -/
def slashDotStar (s : Str) : Bool :=
  match s with
  | '/' :: rest => rest.all dotChar
  | _ => false

/-! ### The Tidal streaming pattern (MBBE-71) -/

/-- Hostname alternatives of the Tidal pattern,
`(?:(?:desktop\.|desktop\.stage\.|listen\.|www\.)?tidal\.com)`,
flattened to the five literal hostnames (in the alternation's order,
optional prefix present first). -/
def tidalHosts : List Str :=
  [str "desktop.tidal.com", str "desktop.stage.tidal.com",
   str "listen.tidal.com", str "www.tidal.com", str "tidal.com"]

/-- `(?:/browse)?`: greedily strip an optional literal `/browse`
(no continuation of the pattern can start with `/browse`, so the greedy
choice never loses a match). -/
def stripBrowse (s : Str) : Str :=
  match stripPre (str "/browse") s with
  | some r => r
  | none => s

/-- `(?:/|\?.*)?$`: trailing slash, query, or nothing. -/
def tidalSuffixOk (s : Str) : Bool :=
  s == [] || s == ['/'] ||
    (match s with
     | '?' :: rest => rest.all dotChar
     | _ => false)

/-- `(?:album|artist|track|video|album/\d+/track)` followed by `/`:
returns the matched keyword and the rest. The four keywords are pairwise
non-prefix-compatible; the fifth alternative is handled by `tidalPath`. -/
def stripKind (s : Str) : Option (Str × Str) :=
  match stripPre (str "album/") s with
  | some r => some (str "album", r)
  | none =>
    match stripPre (str "artist/") s with
    | some r => some (str "artist", r)
    | none =>
      match stripPre (str "track/") s with
      | some r => some (str "track", r)
      | none =>
        match stripPre (str "video/") s with
        | some r => some (str "video", r)
        | none => none

/-- `(/(?:album|artist|track|video|album/\d+/track)/\d+)(?:/|\?.*)?$`:
the captured significant path component. The `album/\d+/track`
alternative only comes into play when the short `album` alternative
fails, exactly as under leftmost-first matching (after `/album/<digits>`
the remainder `/track/...` never satisfies the trailing-suffix form). -/
def tidalPath (s : Str) : Option Str :=
  match s with
  | '/' :: s1 =>
    match stripKind s1 with
    | none => none
    | some (kind, s2) =>
      let ds := s2.takeWhile Char.isDigit
      let s3 := s2.dropWhile Char.isDigit
      if ds == [] then none
      else if tidalSuffixOk s3 then some ('/' :: (kind ++ '/' :: ds))
      else if kind == str "album" then
        match stripPre (str "/track/") s3 with
        | none => none
        | some s4 =>
          let ds2 := s4.takeWhile Char.isDigit
          let s5 := s4.dropWhile Char.isDigit
          if ds2 == [] then none
          else if tidalSuffixOk s5 then
            some ('/' :: (kind ++ '/' :: ds ++ str "/track/" ++ ds2))
          else none
      else none
  | _ => none

/-- The whole Tidal streaming pattern of url.go; returns `[ms0, ms1]`
with `ms0` the full match (the input, since the pattern is anchored both
ends) and `ms1` the captured path. -/
def tidalMatch (s : Str) : Option (List Str) :=
  match stripScheme s with
  | none => none
  | some s1 =>
    match stripFirst tidalHosts s1 with
    | none => none
    | some s2 =>
      match tidalPath (stripBrowse s2) with
      | none => none
      | some p => some [s, p]

/-- `tidalAlbumTrackRegexp`: `^/album/(\d+)/track/(\d+)$`. -/
def albumTrackMatch (p : Str) : Option (Str × Str) :=
  match stripPre (str "/album/") p with
  | none => none
  | some r =>
    let ds := r.takeWhile Char.isDigit
    let r1 := r.dropWhile Char.isDigit
    if ds == [] then none
    else
      match stripPre (str "/track/") r1 with
      | none => none
      | some r2 =>
        if r2 != [] && r2.all Char.isDigit then some (ds, r2) else none

/-! ### The GeoCities pattern (MBBE-47) -/

/-- `[-a-z0-9]`. -/
def isLabelChar (c : Char) : Bool := c == '-' || c.isLower || c.isDigit

/-- `(?:[-a-z0-9]+\.)?`: strip one nonempty hostname label and its dot.
The character class excludes `.`, so the label is exactly the maximal
run of label characters. -/
def stripLabelDot (s : Str) : Option Str :=
  let run := s.takeWhile isLabelChar
  let rest := s.dropWhile isLabelChar
  if run == [] then none
  else
    match rest with
    | '.' :: r => some r
    | _ => none

/-- `(com|jp|co\.jp)` followed by `/.*$`: the three alternatives are
pairwise non-prefix-compatible. Returns the captured TLD. -/
def geoTLD (s : Str) : Option Str :=
  match stripPre (str "com") s with
  | some r => if slashDotStar r then some (str "com") else none
  | none =>
    match stripPre (str "jp") s with
    | some r => if slashDotStar r then some (str "jp") else none
    | none =>
      match stripPre (str "co.jp") s with
      | some r => if slashDotStar r then some (str "co.jp") else none
      | none => none

/-- `geocities\.(?:yahoo\.)?(com|jp|co\.jp)/.*$` (after the optional
leading label). The optional `yahoo.` is stripped greedily: no TLD
alternative starts with `y`, so the greedy choice never loses a match. -/
def geoTail (s : Str) : Option Str :=
  match stripPre (str "geocities.") s with
  | none => none
  | some s1 =>
    match stripPre (str "yahoo.") s1 with
    | some s2 => geoTLD s2
    | none => geoTLD s1

/-- The whole GeoCities pattern of url.go; `[ms0, ms1]` with `ms1` the
captured TLD. The optional label is tried first (leftmost-first), falling
back to no label. -/
def geocitiesMatch (s : Str) : Option (List Str) :=
  match stripScheme s with
  | none => none
  | some s1 =>
    let tld :=
      match stripLabelDot s1 with
      | some s2 =>
        match geoTail s2 with
        | some t => some t
        | none => geoTail s1
      | none => geoTail s1
    match tld with
    | some t => some [s, t]
    | none => none

/-! ### The Tidal Store pattern (MBBE-63) -/

/-- `(/[a-zA-Z]{2})?/store/.*$` after `tidal.com`. The two alternatives
for the optional country code cannot both apply (`/XY/store` forces the
fourth character to be `/` while `/store` puts `o` there). -/
def storeTail (r : Str) : Bool :=
  (match r with
   | '/' :: a :: b :: rest =>
     a.isAlpha && b.isAlpha &&
       (match stripPre (str "/store") rest with
        | some r2 => slashDotStar r2
        | none => false)
   | _ => false) ||
  (match stripPre (str "/store") r with
   | some r2 => slashDotStar r2
   | none => false)

/-- The whole Tidal Store pattern
`^https?://(store\.tidal\.com|tidal\.com(/[a-zA-Z]{2})?/store)/.*$`.
Only `ms[0]` is used by the transform, so the inner captures are not
reconstructed; the returned list carries the full match. -/
def tidalStoreMatch (s : Str) : Option (List Str) :=
  match stripScheme s with
  | none => none
  | some s1 =>
    match stripPre (str "store.tidal.com") s1 with
    | some r => if slashDotStar r then some [s] else none
    | none =>
      match stripPre (str "tidal.com") s1 with
      | none => none
      | some r => if storeTail r then some [s] else none

/-! ### The RecMusic pattern (MBBE-48/49) -/

/-- The whole RecMusic pattern
`^https?://recmusic\.jp/(?:[a-z][a-z]/)?(artist|album)/\?id=(\d+)$`;
`[ms0, ms1, ms2]` with `ms1` the entity type and `ms2` the numeric id.
The optional country code (`[a-z][a-z]/`) forces a `/` third, while the
`artist|album` alternatives put `t`/`b` there, so the greedy optional
never loses a match. -/
def recmusicMatch (s : Str) : Option (List Str) :=
  match stripScheme s with
  | none => none
  | some s1 =>
    match stripPre (str "recmusic.jp/") s1 with
    | none => none
    | some r =>
      let r1 :=
        match r with
        | a :: b :: '/' :: rest => if a.isLower && b.isLower then rest else r
        | _ => r
      let tyres :=
        match stripPre (str "artist") r1 with
        | some r2 => some (str "artist", r2)
        | none =>
          match stripPre (str "album") r1 with
          | some r2 => some (str "album", r2)
          | none => none
      match tyres with
      | none => none
      | some (ty, r2) =>
        match stripPre (str "/?id=") r2 with
        | none => none
        | some r3 =>
          if r3 != [] && r3.all Char.isDigit then some [s, ty, r3] else none

/-! ### Edit notes and fixed dates (url.go) -/

def tidalEditNote : Str :=
  str "normalize Tidal streaming URLs: https://tickets.metabrainz.org/browse/MBBE-71"
def geocitiesEditNote : Str :=
  str "end GeoCities relationships: https://tickets.metabrainz.org/browse/MBBE-47"
def tidalStoreEditNote : Str :=
  str "end Tidal Store relationships: https://tickets.metabrainz.org/browse/MBBE-63"
def recmusicEditNote : Str :=
  str ("convert RecMusic URLs to Tower Records Music: " ++
    "https://tickets.metabrainz.org/browse/MBBE-48, " ++
    "https://tickets.metabrainz.org/browse/MBBE-49")

def geocitiesEndDate : date := ⟨2009, 10, 26⟩
def geocitiesJapanEndDate : date := ⟨2019, 3, 31⟩
def tidalStoreEndDate : date := ⟨2022, 10, 20⟩
def recmusicEndDate : date := ⟨2021, 10, 1⟩

/-- `missingTowerRecordsPairs` from url.go, as a membership test on the
`[type, id]` pair. -/
def missingTowerRecordsPairs (p : Str × Str) : Bool :=
  p == (str "artist", str "2001445271") || p == (str "album", str "1016070930")

/-! ### The four transforms of `urlRewrites` -/

/-- Transform of the Tidal streaming rule (url.go, MBBE-71). -/
def tidalFn (ms : List Str) (rels : List relInfo) : Option rewriteResult :=
  let p := ms.getD 1 []
  let res : rewriteResult :=
    { rewritten := str "https://tidal.com" ++ p
      updatedRels := []
      newURLs := []
      editNote := tidalEditNote }
  match albumTrackMatch p with
  | some (album, track) =>
    if (filterRels rels (str "recording")).length > 0 then
      some { res with rewritten := str "https://tidal.com/track/" ++ track }
    else if (filterRels rels (str "release")).length > 0 then
      some { res with rewritten := str "https://tidal.com/album/" ++ album }
    else none
  | none => some res

/-- The relationship loop of the GeoCities rule: every not-yet-ended
relationship, marked ended with the rule's end date. -/
def geocitiesUpdateRels (endDate : date) : List relInfo → List relInfo
  | [] => []
  | rel :: rest =>
    if !rel.ended then
      { rel with ended := true, endDate := endDate } :: geocitiesUpdateRels endDate rest
    else geocitiesUpdateRels endDate rest

/-- Transform of the GeoCities rule (url.go, MBBE-47). -/
def geocitiesFn (ms : List Str) (rels : List relInfo) : Option rewriteResult :=
  let endDate :=
    if ms.getD 1 [] == str "jp" || ms.getD 1 [] == str "co.jp" then geocitiesJapanEndDate
    else geocitiesEndDate
  let updated := geocitiesUpdateRels endDate rels
  if updated == [] then none
  else
    some { rewritten := ms.getD 0 []
           updatedRels := updated
           newURLs := []
           editNote := geocitiesEditNote }

/-- Per-relationship body of the Tidal Store rule: fix the link type by
target type, then end the relationship if it is not ended yet. -/
def tidalStoreRel (rel : relInfo) : relInfo :=
  let rel1 :=
    if rel.targetType == str "artist" then { rel with linkTypeID := 176 }
    else if rel.targetType == str "release" then { rel with linkTypeID := 74 }
    else if rel.targetType == str "recording" then { rel with linkTypeID := 254 }
    else rel
  if !rel1.ended then { rel1 with ended := true, endDate := tidalStoreEndDate } else rel1

/-- The relationship loop of the Tidal Store rule: changed relationships
only (`rel != orig`). -/
def tidalStoreUpdateRels : List relInfo → List relInfo
  | [] => []
  | rel :: rest =>
    let newRel := tidalStoreRel rel
    if newRel ≠ rel then newRel :: tidalStoreUpdateRels rest
    else tidalStoreUpdateRels rest

/-- Transform of the Tidal Store rule (url.go, MBBE-63). -/
def tidalStoreFn (ms : List Str) (rels : List relInfo) : Option rewriteResult :=
  let updated := tidalStoreUpdateRels rels
  if updated == [] then none
  else
    some { rewritten := ms.getD 0 []
           updatedRels := updated
           newURLs := []
           editNote := tidalStoreEditNote }

/-- The relationship loop of the RecMusic rule: returns the updated
relationships (ended ones skipped, `rel != orig` check) and the new
relationships for the Tower Records URL (one per original relationship,
unless the `[type, id]` pair is in the exclusion set). -/
def recmusicLoop (ty ids : Str) : List relInfo → List relInfo × List relInfo
  | [] => ([], [])
  | rel :: rest =>
    let (ups, news) := recmusicLoop ty ids rest
    let rel1 := if !rel.ended then { rel with ended := true, endDate := recmusicEndDate } else rel
    let ups1 := if rel1 ≠ rel then rel1 :: ups else ups
    let news1 :=
      if missingTowerRecordsPairs (ty, ids) then news
      else
        { rel with
          id := 0
          beginDate := recmusicEndDate
          endDate := ⟨0, 0, 0⟩
          ended := false } :: news
    (ups1, news1)

/-- Transform of the RecMusic rule (url.go, MBBE-48/49). -/
def recmusicFn (ms : List Str) (rels : List relInfo) : Option rewriteResult :=
  if rels == [] then none
  else
    let ty := ms.getD 1 []
    let ids := ms.getD 2 []
    let pair := recmusicLoop ty ids rels
    let newURL : urlInfo :=
      { url := str "https://music.tower.jp/" ++ ty ++ str "/detail/" ++ ids
        rels := pair.2 }
    some { rewritten := ms.getD 0 []
           updatedRels := pair.1
           newURLs := if pair.2 ≠ [] then [newURL] else []
           editNote := recmusicEditNote }

/-! ### The rule table and match engine -/

abbrev RulePair := (Str → Option (List Str)) × (List Str → List relInfo → Option rewriteResult)

/-- `urlRewrites` from url.go. The Go source stores the rules in a map
iterated in unspecified order; here they are listed in source order, and
order-independence is proved separately. -/
def urlRewrites : List RulePair :=
  [(tidalMatch, tidalFn), (geocitiesMatch, geocitiesFn),
   (tidalStoreMatch, tidalStoreFn), (recmusicMatch, recmusicFn)]

/-- Body of `doRewrite` once a pattern has matched: run the transform and
discard a result that leaves everything unchanged. -/
def applyRule (fn : List Str → List relInfo → Option rewriteResult)
    (ms : List Str) (orig : Str) (rels : List relInfo) : Option rewriteResult :=
  match fn ms rels with
  | none => none
  | some res =>
    if res.rewritten == orig && res.updatedRels == [] && res.newURLs == [] then none
    else some res

/-- `doRewrite` from url.go: first matching rule wins; a matching rule
that aborts or yields no change gives `none` without trying later rules. -/
def doRewrite (rm : List RulePair) (orig : Str) (rels : List relInfo) : Option rewriteResult :=
  match rm with
  | [] => none
  | (re, fn) :: rest =>
    match re orig with
    | some ms => applyRule fn ms orig rels
    | none => doRewrite rest orig rels

/-- The state of the URL's relationship list after the updates of a
rewrite result are applied: each relationship is replaced by the updated
relationship carrying its id, if any (updateURL keys updates by id). -/
def applyUpdates (rels updated : List relInfo) : List relInfo :=
  rels.map (fun r =>
    match updated.find? (fun u => u.id == r.id) with
    | some u => u
    | none => r)

/-! ### Request-parameter maps (Go `map[string]string`) -/

/-- The request-parameter map, as an association list with distinct keys.
`setVal` is Go map assignment: replace the entry with this key if
present, otherwise append a new one; `length` then agrees with Go `len`. -/
abbrev Vals := List (Str × Str)

def setVal : Vals → Str → Str → Vals
  | [], k, v => [(k, v)]
  | (k1, v1) :: rest, k, v =>
    if k1 == k then (k, v) :: rest else (k1, v1) :: setVal rest k v

/-- Go map lookup `vals[k]`. -/
def getVal? (vals : Vals) (k : Str) : Option Str :=
  (vals.find? (fun p => p.1 == k)).map Prod.snd

/-- The keys of a parameter map. -/
def valKeys (vals : Vals) : List Str := vals.map Prod.fst

/-! ### Integer formatting (`strconv.Itoa`, `fmt.Sprintf("%d", ...)`) -/

def digitChar (n : Nat) : Char :=
  match n with
  | 0 => '0' | 1 => '1' | 2 => '2' | 3 => '3' | 4 => '4'
  | 5 => '5' | 6 => '6' | 7 => '7' | 8 => '8' | _ => '9'

/-- Decimal conversion worker; the fuel argument only drives structural
recursion and is always sufficient (`natToStr` passes `n + 1`). -/
def natToStrAux : Nat → Nat → Str
  | 0, _ => []
  | fuel + 1, n =>
    if n < 10 then [digitChar n]
    else natToStrAux fuel (n / 10) ++ [digitChar (n % 10)]

/-- Decimal representation of a natural number. -/
def natToStr (n : Nat) : Str := natToStrAux (n + 1) n

/-- Decimal representation of an integer (`strconv.Itoa`). -/
def intToStr (n : Int) : Str :=
  if n < 0 then '-' :: natToStr n.natAbs else natToStr n.natAbs

/-- `itoaNonZero` from rel.go (inside setRelEditVals). -/
def itoaNonZero (v : Int) : Str := if v == 0 then [] else intToStr v

/-- `boolToParam` from rel.go. -/
def boolToParam (v : Bool) : Str := if v then str "1" else str "0"

/-! ### The relationship reconciler (`setRelEditVals`, rel.go) -/

/-- The errors the reconciler and the new-entity loop can return, with
the data the Go error strings carry. -/
inductive editErr where
  | invalidRel (id : Int)
  | noChanges (id : Int)
  | unsupportedUpdate (rel : relInfo)
  | incorrectDirection (rel : relInfo)
deriving DecidableEq, Repr

/-- Field-writing body of `setRelEditVals` (rel.go lines 80-122), after
the two early validity checks. Returns the map (mutated in place in Go,
so returned even alongside an error) and an optional error. -/
def setRelEditValsBody (vals : Vals) (pre : Str) (rel : relInfo) (orig : Option relInfo) :
    Vals × Option editErr :=
  let origCnt := vals.length
  let linkTypeKey := pre ++ str "link_type"
  let vals1 :=
    if (match orig with | none => true | some o => rel.linkTypeID ≠ o.linkTypeID) then
      setVal vals linkTypeKey (intToStr rel.linkTypeID)
    else vals
  let vals2 :=
    if !rel.beginDate.empty &&
        (match orig with | none => true | some o => rel.beginDate ≠ o.beginDate) then
      setVal (setVal (setVal vals1
        (pre ++ str "period.begin_date.year") (itoaNonZero rel.beginDate.year))
        (pre ++ str "period.begin_date.month") (itoaNonZero rel.beginDate.month))
        (pre ++ str "period.begin_date.day") (itoaNonZero rel.beginDate.day)
    else vals1
  let vals3 :=
    if !rel.endDate.empty &&
        (match orig with | none => true | some o => rel.endDate ≠ o.endDate) then
      setVal (setVal (setVal vals2
        (pre ++ str "period.end_date.year") (itoaNonZero rel.endDate.year))
        (pre ++ str "period.end_date.month") (itoaNonZero rel.endDate.month))
        (pre ++ str "period.end_date.day") (itoaNonZero rel.endDate.day)
    else vals2
  let vals4 :=
    if (match orig with | none => rel.ended | some o => rel.ended ≠ o.ended) then
      setVal vals3 (pre ++ str "period.ended") (boolToParam rel.ended)
    else vals3
  if vals4.length == origCnt then (vals4, some (.unsupportedUpdate rel))
  else
    match orig with
    | none => (setVal vals4 (pre ++ str "action") (str "add"), none)
    | some _ =>
      let vals5 :=
        setVal (setVal vals4 (pre ++ str "action") (str "edit"))
          (pre ++ str "id") (intToStr rel.id)
      let vals6 :=
        if (getVal? vals5 linkTypeKey).isSome then vals5
        else setVal vals5 linkTypeKey (intToStr rel.linkTypeID)
      (vals6, none)

/-- `setRelEditVals` from rel.go. In Go the map is mutated in place and
an error is returned; here the (possibly updated) map is returned with
the optional error. The two early checks fail before touching the map. -/
def setRelEditVals (vals : Vals) (pre : Str) (rel : relInfo) (orig : Option relInfo) :
    Vals × Option editErr :=
  match orig with
  | none =>
    if rel.id ≠ 0 then (vals, some (.invalidRel rel.id))
    else setRelEditValsBody vals pre rel none
  | some o =>
    if rel = o then (vals, some (.noChanges rel.id))
    else setRelEditValsBody vals pre rel (some o)

/-! ### The new-entity creation loop of `updateURL` (url.go lines 72-101) -/

/-- Go lexicographic string comparison `<` (byte order; these strings are
ASCII so character order coincides). -/
def strLt : Str → Str → Bool
  | [], [] => false
  | [], _ :: _ => true
  | _ :: _, [] => false
  | a :: as, b :: bs => if a < b then true else if b < a then false else strLt as bs

/-- The direction test of url.go line 82:
`(rel.backward && rel.targetType > "url") || (!rel.backward && rel.targetType < "url")`. -/
def badDirection (rel : relInfo) : Bool :=
  (rel.backward && strLt (str "url") rel.targetType) ||
  (!rel.backward && strLt rel.targetType (str "url"))

/-- One iteration of the new-entity relationship loop (url.go lines
74-93): reconcile against `nil`, then the direction check, then the
entity parameters for both endpoints. -/
def newRelStep (vals : Vals) (pre : Str) (url : Str) (rel : relInfo) : Vals × Option editErr :=
  match setRelEditVals vals pre rel none with
  | (vals1, some e) => (vals1, some e)
  | (vals1, none) =>
    if badDirection rel then (vals1, some (.incorrectDirection rel))
    else
      let urlPre := if rel.backward then pre ++ str "entity.1" else pre ++ str "entity.0"
      let targetPre := if rel.backward then pre ++ str "entity.0" else pre ++ str "entity.1"
      let vals2 := setVal vals1 (urlPre ++ str ".url") url
      let vals3 := setVal vals2 (urlPre ++ str ".type") (str "url")
      let vals4 := setVal vals3 (targetPre ++ str ".gid") rel.targetMBID
      let vals5 := setVal vals4 (targetPre ++ str ".type") rel.targetType
      (vals5, none)

/-- The parameter-name prepend of url.go line 76:
`fmt.Sprintf("rel-editor.rels.%d.", i)`. -/
def relPre (i : Nat) : Str := str "rel-editor.rels." ++ natToStr i ++ str "."

/-- The new-entity relationship loop over one `urlInfo`, starting at
index `i`; stops at the first error (updateURL returns it). -/
def newURLRelsLoop (url : Str) : Vals → Nat → List relInfo → Vals × Option editErr
  | vals, _, [] => (vals, none)
  | vals, i, rel :: rest =>
    match newRelStep vals (relPre i) url rel with
    | (vals1, some e) => (vals1, some e)
    | (vals1, none) => newURLRelsLoop url vals1 (i + 1) rest

/-- The request parameters built for one new URL entity of a rewrite
result (url.go line 73: a fresh map per entity, indices from 0). -/
def newURLVals (info : urlInfo) : Vals × Option editErr :=
  newURLRelsLoop info.url [] 0 info.rels

/-! ### Batch-response interpretation (`postRelEdit`, rel.go lines 142-159) -/

/-- One element of the decoded batch response. -/
structure editResponse where
  relationship_id : Int
  edit_type : Int
  response : Int
deriving DecidableEq, Repr

/-- The failure surfaced when an edit's response code is not 1: the
edit's index, its edit type, and the failing response code. -/
structure relEditFailure where
  index : Nat
  editType : Int
  response : Int
deriving DecidableEq, Repr

/-- The response-interpretation loop of `postRelEdit`, with `i` the index
of the first remaining edit: collect relationship ids until a response
code other than 1 aborts, returning the ids already processed. -/
def postRelEditLoop : Nat → List editResponse → List Int × Option relEditFailure
  | _, [] => ([], none)
  | i, ed :: rest =>
    if ed.response ≠ 1 then ([], some ⟨i, ed.edit_type, ed.response⟩)
    else
      let (ids, e) := postRelEditLoop (i + 1) rest
      (ed.relationship_id :: ids, e)

/-- What `postRelEdit` returns once the response body is decoded. -/
def postRelEditResult (edits : List editResponse) : List Int × Option relEditFailure :=
  postRelEditLoop 0 edits

/-! ### Concrete sample values used by witnesses and counterexamples -/

/-- An active artist relationship (database id 3, link type 978). -/
def sampleRel : relInfo :=
  { id := 3
    linkTypeID := 978
    linkPhrase := str "has a fan page at"
    beginDate := ⟨0, 0, 0⟩
    endDate := ⟨0, 0, 0⟩
    ended := false
    backward := false
    targetMBID := str "mbid-1"
    targetName := str "Artist"
    targetType := str "artist" }

/-- `sampleRel` with only the ended flag changed. -/
def sampleRelEnded : relInfo := { sampleRel with ended := true }

/-- A store relationship before the Tidal Store rule touches it. -/
def sampleStoreRel : relInfo := { sampleRel with linkTypeID := 1 }

/-- A relationship carrying a nonzero id and a direction that violates
the ordering invariant (a backward link to a target type after "url"). -/
def sampleBadRel : relInfo :=
  { sampleRel with
    id := 5
    backward := true
    targetType := str "work" }

/-- `sampleBadRel` with the id zeroed, as rules construct new relationships. -/
def sampleBadRelZero : relInfo := { sampleBadRel with id := 0 }

/-- The engine's result on the sample RecMusic URL with `sampleRel`
attached (computed from the RecMusic rule). -/
def sampleRecResult : rewriteResult :=
  { rewritten := str "https://recmusic.jp/artist/?id=1"
    updatedRels := [{ sampleRel with ended := true, endDate := ⟨2021, 10, 1⟩ }]
    newURLs := [⟨str "https://music.tower.jp/artist/detail/1",
      [{ sampleRel with id := 0, beginDate := ⟨2021, 10, 1⟩ }]⟩]
    editNote := recmusicEditNote }

/-- The parameter-name suffixes `setRelEditVals` can write (creation
path): everything it emits is `pre ++ s` for one of these `s`. -/
def relEditSuffixes : List Str :=
  [str "link_type",
   str "period.begin_date.year", str "period.begin_date.month", str "period.begin_date.day",
   str "period.end_date.year", str "period.end_date.month", str "period.end_date.day",
   str "period.ended", str "action"]

/-- The four single-kind path heads the Tidal pattern accepts. -/
def tidalKinds : List Str := [str "album", str "artist", str "track", str "video"]

/-! ## Theorems -/

/-! ### Generic helper lemmas -/

theorem stripPre_append (a p : Str) : stripPre a (a ++ p) = some p := by
  induction a with
  | nil => rfl
  | cons c cs ih => simp [stripPre, ih]

theorem stripPre_eq_some {a s r : Str} (h : stripPre a s = some r) : s = a ++ r := by
  induction a generalizing s with
  | nil => simpa [stripPre, eq_comm] using h.symm
  | cons c cs ih =>
    cases s with
    | nil => simp [stripPre] at h
    | cons d ds =>
      by_cases hc : c = d
      · subst hc
        simp only [stripPre, beq_self_eq_true, if_true] at h
        simpa using ih h
      · simp [stripPre, hc] at h

theorem takeWhile_eq_self_of_all {p : Char → Bool} {l : Str} (h : l.all p) :
    l.takeWhile p = l := by
  induction l with
  | nil => rfl
  | cons c cs ih =>
    simp only [List.all_cons, Bool.and_eq_true] at h
    simp [List.takeWhile_cons, h.1, ih h.2]

theorem dropWhile_eq_nil_of_all {p : Char → Bool} {l : Str} (h : l.all p) :
    l.dropWhile p = [] := by
  induction l with
  | nil => rfl
  | cons c cs ih =>
    simp only [List.all_cons, Bool.and_eq_true] at h
    simp [List.dropWhile_cons, h.1, ih h.2]

theorem takeWhile_append_cons {p : Char → Bool} {a : Str} (c : Char) (b : Str)
    (ha : a.all p) (hc : p c = false) : (a ++ c :: b).takeWhile p = a := by
  induction a with
  | nil => simp [List.takeWhile_cons, hc]
  | cons d ds ih =>
    simp only [List.all_cons, Bool.and_eq_true] at ha
    simp [List.takeWhile_cons, ha.1, ih ha.2]

theorem dropWhile_append_cons {p : Char → Bool} {a : Str} (c : Char) (b : Str)
    (ha : a.all p) (hc : p c = false) : (a ++ c :: b).dropWhile p = c :: b := by
  induction a with
  | nil => simp [List.dropWhile_cons, hc]
  | cons d ds ih =>
    simp only [List.all_cons, Bool.and_eq_true] at ha
    simp [List.dropWhile_cons, ha.1, ih ha.2]

theorem all_takeWhile (p : Char → Bool) (l : Str) : (l.takeWhile p).all p := by
  induction l with
  | nil => rfl
  | cons c cs ih =>
    by_cases h : p c
    · simp [List.takeWhile_cons, h, ih]
    · simp [List.takeWhile_cons, h]

/-! ### Parameter-map lemmas -/

theorem setVal_of_not_mem {v : Vals} {k : Str} (x : Str) (h : k ∉ valKeys v) :
    setVal v k x = v ++ [(k, x)] := by
  induction v with
  | nil => rfl
  | cons p rest ih =>
    simp only [valKeys, List.map_cons, List.mem_cons, not_or] at h
    obtain ⟨p1, p2⟩ := p
    have hb : (p1 == k) = false := by
      simp only [beq_eq_false_iff_ne, ne_eq]
      exact fun hk => h.1 hk.symm
    simp only [setVal, hb, Bool.false_eq_true, if_false, List.cons_append, List.cons.injEq,
      true_and]
    exact ih (by simpa [valKeys] using h.2)

theorem length_setVal_ge (v : Vals) (k x : Str) : v.length ≤ (setVal v k x).length := by
  induction v with
  | nil => simp [setVal]
  | cons p rest ih =>
    obtain ⟨p1, p2⟩ := p
    by_cases h : (p1 == k) = true
    · simp [setVal, h]
    · simp only [setVal, h, Bool.false_eq_true, if_false, List.length_cons]
      omega

theorem valKeys_setVal (v : Vals) (k x : Str) :
    ∀ k' ∈ valKeys (setVal v k x), k' ∈ valKeys v ∨ k' = k := by
  induction v with
  | nil => simp [setVal, valKeys]
  | cons p rest ih =>
    obtain ⟨p1, p2⟩ := p
    by_cases h : (p1 == k) = true
    · intro k' hk'
      simp only [setVal, h, if_true, valKeys, List.map_cons, List.mem_cons] at hk' ⊢
      tauto
    · intro k' hk'
      simp only [setVal, h, Bool.false_eq_true, if_false, valKeys, List.map_cons,
        List.mem_cons] at hk' ⊢
      rcases hk' with h1 | h2
      · tauto
      · rcases ih k' h2 with h3 | h3 <;> tauto

theorem getVal?_eq_none_iff {v : Vals} {k : Str} :
    getVal? v k = none ↔ k ∉ valKeys v := by
  induction v with
  | nil => simp [getVal?, valKeys]
  | cons p rest ih =>
    obtain ⟨p1, p2⟩ := p
    by_cases h : (p1 == k) = true
    · have : p1 = k := by simpa using h
      simp [getVal?, valKeys, List.find?_cons, h, this]
    · have hne : p1 ≠ k := by simpa using h
      have hne2 : ¬k = p1 := fun hk => hne hk.symm
      simp only [getVal?, valKeys, List.map_cons, List.mem_cons, List.find?_cons, h]
      simp only [getVal?, valKeys] at ih
      simp only [Bool.false_eq_true, if_false, ih]
      simp [hne2]

/-! ### Decimal-formatting lemmas (needed for parameter-key freshness) -/

theorem digitChar_isDigit {n : Nat} (h : n < 10) : (digitChar n).isDigit := by
  interval_cases n <;> decide

theorem digitChar_injOn {m n : Nat} (hm : m < 10) (hn : n < 10)
    (h : digitChar m = digitChar n) : m = n := by
  interval_cases m <;> interval_cases n <;> first | rfl | exact absurd h (by decide)

theorem natToStrAux_fuel {n : Nat} : ∀ (f1 f2 : Nat), n < f1 → n < f2 →
    natToStrAux f1 n = natToStrAux f2 n := by
  induction n using Nat.strong_induction_on with
  | _ n ih =>
    intro f1 f2 h1 h2
    cases f1 with
    | zero => omega
    | succ g1 =>
      cases f2 with
      | zero => omega
      | succ g2 =>
        simp only [natToStrAux]
        by_cases h10 : n < 10
        · rw [if_pos h10, if_pos h10]
        · rw [if_neg h10, if_neg h10]
          have hlt : n / 10 < n := Nat.div_lt_self (by omega) (by norm_num)
          rw [ih (n / 10) hlt g1 g2 (by omega) (by omega)]

theorem natToStr_eq (n : Nat) : natToStr n =
    if n < 10 then [digitChar n] else natToStr (n / 10) ++ [digitChar (n % 10)] := by
  show natToStrAux (n + 1) n = _
  simp only [natToStrAux]
  by_cases h10 : n < 10
  · rw [if_pos h10, if_pos h10]
  · rw [if_neg h10, if_neg h10]
    have hlt : n / 10 < n := Nat.div_lt_self (by omega) (by norm_num)
    rw [natToStrAux_fuel n (n / 10 + 1) (by omega) (by omega)]
    rfl

theorem natToStr_ne_nil (n : Nat) : natToStr n ≠ [] := by
  rw [natToStr_eq]
  split
  · simp
  · simp

theorem natToStr_all_digits (n : Nat) : (natToStr n).all Char.isDigit := by
  induction n using Nat.strong_induction_on with
  | _ n ih =>
    rw [natToStr_eq]
    split
    · next h => simp [digitChar_isDigit h]
    · next h =>
      have h10 : 10 ≤ n := Nat.not_lt.mp h
      have : n / 10 < n := Nat.div_lt_self (by omega) (by norm_num)
      simp only [List.all_append, Bool.and_eq_true]
      exact ⟨ih _ this, by simp [digitChar_isDigit (Nat.mod_lt n (by norm_num))]⟩

theorem concat_inj {a b : Str} {x y : Char} (h : a ++ [x] = b ++ [y]) :
    a = b ∧ x = y := by
  have hr := congrArg List.reverse h
  simp only [List.reverse_append, List.reverse_cons, List.reverse_nil, List.nil_append,
    List.singleton_append, List.cons.injEq] at hr
  exact ⟨by simpa using congrArg List.reverse hr.2, hr.1⟩

theorem natToStr_inj {m n : Nat} (h : natToStr m = natToStr n) : m = n := by
  induction m using Nat.strong_induction_on generalizing n with
  | _ m ih =>
    rw [natToStr_eq] at h
    conv at h => rhs; rw [natToStr_eq]
    split at h
    · next hm =>
      split at h
      · next hn =>
        simp only [List.cons.injEq, and_true] at h
        exact digitChar_injOn hm hn h
      · next hn =>
        exfalso
        have hlen := congrArg List.length h
        have hne := natToStr_ne_nil (n / 10)
        simp only [List.length_cons, List.length_append, List.length_nil] at hlen
        cases hq : natToStr (n / 10) with
        | nil => exact hne hq
        | cons c cs => rw [hq] at hlen; simp at hlen
    · next hm =>
      split at h
      · next hn =>
        exfalso
        have hlen := congrArg List.length h
        have hne := natToStr_ne_nil (m / 10)
        simp only [List.length_cons, List.length_append, List.length_nil] at hlen
        cases hq : natToStr (m / 10) with
        | nil => exact hne hq
        | cons c cs => rw [hq] at hlen; simp at hlen
      · next hn =>
        have hm10 : 10 <= m := Nat.not_lt.mp hm
        have hlt : m / 10 < m := Nat.div_lt_self (by omega) (by norm_num)
        obtain ⟨h1, h2⟩ := concat_inj h
        have hdiv : m / 10 = n / 10 := ih _ hlt h1
        have hmod : m % 10 = n % 10 :=
          digitChar_injOn (Nat.mod_lt m (by norm_num)) (Nat.mod_lt n (by norm_num)) h2
        omega

/-! ### Prefix-matching lemmas -/

theorem stripPre_mismatch (common : Str) {c d : Char} (ps cs : Str) (h : c ≠ d) :
    stripPre (common ++ c :: ps) (common ++ d :: cs) = none := by
  induction common with
  | nil => simp [stripPre, h]
  | cons e es ih => simp [stripPre, ih]

theorem stripFirst_eq_some {hs : List Str} {s r : Str} (h : stripFirst hs s = some r) :
    ∃ a ∈ hs, s = a ++ r := by
  induction hs with
  | nil => simp [stripFirst] at h
  | cons a as ih =>
    simp only [stripFirst] at h
    cases ha : stripPre a s with
    | some r1 =>
      rw [ha] at h
      simp only [Option.some.injEq] at h
      exact ⟨a, by simp, by rw [stripPre_eq_some ha, h]⟩
    | none =>
      rw [ha] at h
      obtain ⟨b, hb, hs2⟩ := ih h
      exact ⟨b, by simp [hb], hs2⟩

theorem stripScheme_https (p : Str) : stripScheme (str "https://" ++ p) = some p := by
  simp [stripScheme, stripPre_append]

theorem stripScheme_http (p : Str) : stripScheme (str "http://" ++ p) = some p := by
  have h1 : stripPre (str "https://") (str "http://" ++ p) = none :=
    stripPre_mismatch (str "http") (str "://") (str "//" ++ p) (by decide)
  simp [stripScheme, h1, stripPre_append]

theorem stripScheme_eq_some {s r : Str} (h : stripScheme s = some r) :
    s = str "https://" ++ r ∨ s = str "http://" ++ r := by
  simp only [stripScheme] at h
  cases h1 : stripPre (str "https://") s with
  | some r1 =>
    rw [h1] at h
    simp only [Option.some.injEq] at h
    exact Or.inl (by rw [stripPre_eq_some h1, h])
  | none =>
    rw [h1] at h
    exact Or.inr (stripPre_eq_some h)

/-! ### GeoCities-pattern helper lemmas -/

theorem stripLabelDot_eq (run rest : Str) (h1 : run.all isLabelChar) (h2 : run ≠ []) :
    stripLabelDot (run ++ '.' :: rest) = some rest := by
  have hd : isLabelChar '.' = false := by decide
  simp only [stripLabelDot, takeWhile_append_cons '.' rest h1 hd,
    dropWhile_append_cons '.' rest h1 hd]
  simp [h2]

theorem geoTail_ne_g {c : Char} (rest : Str) (h : c ≠ 'g') : geoTail (c :: rest) = none := by
  have h1 : stripPre (str "geocities.") (c :: rest) = none :=
    stripPre_mismatch [] (str "eocities.") rest (fun he => h he.symm)
  simp [geoTail, h1]

theorem geocitiesMatch_eq_none {u s1 : Str} (hs : stripScheme u = some s1)
    (h1 : geoTail s1 = none) (h2 : ∀ s2, stripLabelDot s1 = some s2 → geoTail s2 = none) :
    geocitiesMatch u = none := by
  simp only [geocitiesMatch, hs]
  cases hl : stripLabelDot s1 with
  | none => simp [h1]
  | some s2 => simp [h2 s2 hl, h1]

/-! ### Tidal-pattern helper lemmas -/

theorem stripKind_album (r : Str) : stripKind (str "album/" ++ r) = some (str "album", r) := by
  simp [stripKind, stripPre_append]

theorem stripKind_artist (r : Str) : stripKind (str "artist/" ++ r) = some (str "artist", r) := by
  have h1 : stripPre (str "album/") (str "artist/" ++ r) = none :=
    stripPre_mismatch (str "a") (str "bum/") (str "tist/" ++ r) (by decide)
  simp [stripKind, h1, stripPre_append]

theorem stripKind_track (r : Str) : stripKind (str "track/" ++ r) = some (str "track", r) := by
  have h1 : stripPre (str "album/") (str "track/" ++ r) = none :=
    stripPre_mismatch [] (str "lbum/") (str "rack/" ++ r) (by decide)
  have h2 : stripPre (str "artist/") (str "track/" ++ r) = none :=
    stripPre_mismatch [] (str "rtist/") (str "rack/" ++ r) (by decide)
  simp [stripKind, h1, h2, stripPre_append]

theorem stripKind_video (r : Str) : stripKind (str "video/" ++ r) = some (str "video", r) := by
  have h1 : stripPre (str "album/") (str "video/" ++ r) = none :=
    stripPre_mismatch [] (str "lbum/") (str "ideo/" ++ r) (by decide)
  have h2 : stripPre (str "artist/") (str "video/" ++ r) = none :=
    stripPre_mismatch [] (str "rtist/") (str "ideo/" ++ r) (by decide)
  have h3 : stripPre (str "track/") (str "video/" ++ r) = none :=
    stripPre_mismatch [] (str "rack/") (str "ideo/" ++ r) (by decide)
  simp [stripKind, h1, h2, h3, stripPre_append]

/-- No keyword alternative survives a two-character path component. -/
theorem stripKind_slash3 (a b : Char) (rest : Str) : stripKind (a :: b :: '/' :: rest) = none := by
  have h1 : stripPre (str "album/") (a :: b :: '/' :: rest) = none := by
    simp only [str, stripPre]
    by_cases ha : ('a' == a) = true
    · by_cases hb : ('l' == b) = true
      · simp [ha, hb]
      · simp [ha, hb]
    · simp [ha]
  have h2 : stripPre (str "artist/") (a :: b :: '/' :: rest) = none := by
    simp only [str, stripPre]
    by_cases ha : ('a' == a) = true
    · by_cases hb : ('r' == b) = true
      · simp [ha, hb]
      · simp [ha, hb]
    · simp [ha]
  have h3 : stripPre (str "track/") (a :: b :: '/' :: rest) = none := by
    simp only [str, stripPre]
    by_cases ha : ('t' == a) = true
    · by_cases hb : ('r' == b) = true
      · simp [ha, hb]
      · simp [ha, hb]
    · simp [ha]
  have h4 : stripPre (str "video/") (a :: b :: '/' :: rest) = none := by
    simp only [str, stripPre]
    by_cases ha : ('v' == a) = true
    · by_cases hb : ('i' == b) = true
      · simp [ha, hb]
      · simp [ha, hb]
    · simp [ha]
  simp [stripKind, h1, h2, h3, h4]

/-- `/browse` never starts a two-character path component. -/
theorem stripPre_browse_slash3 (a b : Char) (rest : Str) :
    stripPre (str "/browse") ('/' :: a :: b :: '/' :: rest) = none := by
  simp only [str, stripPre]
  by_cases ha : ('b' == a) = true
  · by_cases hb : ('r' == b) = true
    · simp [ha, hb]
    · simp [ha, hb]
  · simp [ha]


theorem stripBrowse_short {kind : Str} (ds : Str) (hk : kind ∈ tidalKinds) :
    stripBrowse ('/' :: (kind ++ '/' :: ds)) = '/' :: (kind ++ '/' :: ds) := by
  simp only [tidalKinds, List.mem_cons, List.not_mem_nil, or_false] at hk
  rcases hk with h | h | h | h <;> subst h <;>
    [ (have hb : stripPre (str "/browse") ('/' :: (str "album" ++ '/' :: ds)) = none :=
        stripPre_mismatch (str "/") (str "rowse") (str "lbum" ++ '/' :: ds) (by decide));
      (have hb : stripPre (str "/browse") ('/' :: (str "artist" ++ '/' :: ds)) = none :=
        stripPre_mismatch (str "/") (str "rowse") (str "rtist" ++ '/' :: ds) (by decide));
      (have hb : stripPre (str "/browse") ('/' :: (str "track" ++ '/' :: ds)) = none :=
        stripPre_mismatch (str "/") (str "rowse") (str "rack" ++ '/' :: ds) (by decide));
      (have hb : stripPre (str "/browse") ('/' :: (str "video" ++ '/' :: ds)) = none :=
        stripPre_mismatch (str "/") (str "rowse") (str "ideo" ++ '/' :: ds) (by decide))] <;>
    simp [stripBrowse, hb]

theorem tidalPath_short {kind : Str} (ds : Str) (hk : kind ∈ tidalKinds) (hne : ds ≠ [])
    (hd : ds.all Char.isDigit) :
    tidalPath ('/' :: (kind ++ '/' :: ds)) = some ('/' :: (kind ++ '/' :: ds)) := by
  have htw := takeWhile_eq_self_of_all hd
  have hdw := dropWhile_eq_nil_of_all hd
  simp only [tidalKinds, List.mem_cons, List.not_mem_nil, or_false] at hk
  rcases hk with h | h | h | h <;> subst h
  · show tidalPath ('/' :: (str "album/" ++ ds)) = _
    simp [tidalPath, stripKind_album, htw, hdw, hne, tidalSuffixOk]
  · show tidalPath ('/' :: (str "artist/" ++ ds)) = _
    simp [tidalPath, stripKind_artist, htw, hdw, hne, tidalSuffixOk]
  · show tidalPath ('/' :: (str "track/" ++ ds)) = _
    simp [tidalPath, stripKind_track, htw, hdw, hne, tidalSuffixOk]
  · show tidalPath ('/' :: (str "video/" ++ ds)) = _
    simp [tidalPath, stripKind_video, htw, hdw, hne, tidalSuffixOk]

theorem albumTrackMatch_short {kind : Str} (ds : Str) (hk : kind ∈ tidalKinds)
    (hd : ds.all Char.isDigit) : albumTrackMatch ('/' :: (kind ++ '/' :: ds)) = none := by
  simp only [tidalKinds, List.mem_cons, List.not_mem_nil, or_false] at hk
  rcases hk with h | h | h | h <;> subst h
  · show albumTrackMatch (str "/album/" ++ ds) = none
    have h7 : stripPre (str "/track/") ([] : Str) = none := by decide
    simp [albumTrackMatch, stripPre_append, takeWhile_eq_self_of_all hd,
      dropWhile_eq_nil_of_all hd, h7]
  · show albumTrackMatch ('/' :: (str "artist" ++ '/' :: ds)) = none
    have h1 : stripPre (str "/album/") ('/' :: (str "artist" ++ '/' :: ds)) = none :=
      stripPre_mismatch (str "/a") (str "bum/") (str "tist" ++ '/' :: ds) (by decide)
    simp [albumTrackMatch, h1]
  · show albumTrackMatch ('/' :: (str "track" ++ '/' :: ds)) = none
    have h1 : stripPre (str "/album/") ('/' :: (str "track" ++ '/' :: ds)) = none :=
      stripPre_mismatch (str "/") (str "album/") (str "rack" ++ '/' :: ds) (by decide)
    simp [albumTrackMatch, h1]
  · show albumTrackMatch ('/' :: (str "video" ++ '/' :: ds)) = none
    have h1 : stripPre (str "/album/") ('/' :: (str "video" ++ '/' :: ds)) = none :=
      stripPre_mismatch (str "/") (str "album/") (str "ideo" ++ '/' :: ds) (by decide)
    simp [albumTrackMatch, h1]

theorem stripFirst_tidal (x : Str) :
    stripFirst tidalHosts (str "tidal.com" ++ x) = some x := by
  have h1 : stripPre (str "desktop.tidal.com") (str "tidal.com" ++ x) = none :=
    stripPre_mismatch [] (str "esktop.tidal.com") (str "idal.com" ++ x) (by decide)
  have h2 : stripPre (str "desktop.stage.tidal.com") (str "tidal.com" ++ x) = none :=
    stripPre_mismatch [] (str "esktop.stage.tidal.com") (str "idal.com" ++ x) (by decide)
  have h3 : stripPre (str "listen.tidal.com") (str "tidal.com" ++ x) = none :=
    stripPre_mismatch [] (str "isten.tidal.com") (str "idal.com" ++ x) (by decide)
  have h4 : stripPre (str "www.tidal.com") (str "tidal.com" ++ x) = none :=
    stripPre_mismatch [] (str "ww.tidal.com") (str "idal.com" ++ x) (by decide)
  simp [tidalHosts, stripFirst, h1, h2, h3, h4, stripPre_append]

/-- The canonical Tidal output re-matches the Tidal pattern with itself as
the captured path. -/
theorem tidalMatch_canonical {kind : Str} (ds : Str) (hk : kind ∈ tidalKinds) (hne : ds ≠ [])
    (hd : ds.all Char.isDigit) :
    tidalMatch (str "https://tidal.com" ++ ('/' :: (kind ++ '/' :: ds))) =
      some [str "https://tidal.com" ++ ('/' :: (kind ++ '/' :: ds)), '/' :: (kind ++ '/' :: ds)] := by
  have hs : stripScheme (str "https://tidal.com" ++ ('/' :: (kind ++ '/' :: ds))) =
      some (str "tidal.com" ++ ('/' :: (kind ++ '/' :: ds))) := stripScheme_https _
  simp only [tidalMatch, hs, stripFirst_tidal, stripBrowse_short ds hk,
    tidalPath_short ds hk hne hd]

theorem stripKind_some {s1 kind s2 : Str} (h : stripKind s1 = some (kind, s2)) :
    kind ∈ tidalKinds ∧ s1 = kind ++ '/' :: s2 := by
  simp only [stripKind] at h
  cases h1 : stripPre (str "album/") s1 with
  | some r =>
    rw [h1] at h
    simp only [Option.some.injEq, Prod.mk.injEq] at h
    refine ⟨by simp [tidalKinds, h.1], ?_⟩
    rw [stripPre_eq_some h1, ← h.1, ← h.2]
    rfl
  | none =>
    rw [h1] at h
    cases h2 : stripPre (str "artist/") s1 with
    | some r =>
      rw [h2] at h
      simp only [Option.some.injEq, Prod.mk.injEq] at h
      refine ⟨by simp [tidalKinds, h.1], ?_⟩
      rw [stripPre_eq_some h2, ← h.1, ← h.2]
      rfl
    | none =>
      rw [h2] at h
      cases h3 : stripPre (str "track/") s1 with
      | some r =>
        rw [h3] at h
        simp only [Option.some.injEq, Prod.mk.injEq] at h
        refine ⟨by simp [tidalKinds, h.1], ?_⟩
        rw [stripPre_eq_some h3, ← h.1, ← h.2]
        rfl
      | none =>
        rw [h3] at h
        cases h4 : stripPre (str "video/") s1 with
        | some r =>
          rw [h4] at h
          simp only [Option.some.injEq, Prod.mk.injEq] at h
          refine ⟨by simp [tidalKinds, h.1], ?_⟩
          rw [stripPre_eq_some h4, ← h.1, ← h.2]
          rfl
        | none => rw [h4] at h; simp at h

theorem tidalPath_some {s p : Str} (h : tidalPath s = some p) :
    (∃ kind ds, kind ∈ tidalKinds ∧ ds ≠ [] ∧ ds.all Char.isDigit ∧
      p = '/' :: (kind ++ '/' :: ds)) ∨
    (∃ d1 d2, d1 ≠ [] ∧ d1.all Char.isDigit ∧ d2 ≠ [] ∧ d2.all Char.isDigit ∧
      p = '/' :: (str "album" ++ '/' :: d1 ++ str "/track/" ++ d2)) := by
  cases s with
  | nil => simp [tidalPath] at h
  | cons c s1 =>
    by_cases hc : c = '/'
    · subst hc
      simp only [tidalPath] at h
      cases hsk : stripKind s1 with
      | none => rw [hsk] at h; simp at h
      | some ks =>
        obtain ⟨kind, s2⟩ := ks
        obtain ⟨hkmem, hs1⟩ := stripKind_some hsk
        rw [hsk] at h
        simp only at h
        by_cases hds : (s2.takeWhile Char.isDigit == ([] : Str)) = true
        · rw [if_pos hds] at h; simp at h
        · rw [if_neg hds] at h
          have hdsne : s2.takeWhile Char.isDigit ≠ [] := by simpa using hds
          by_cases hsuf : (tidalSuffixOk (s2.dropWhile Char.isDigit)) = true
          · rw [if_pos hsuf] at h
            simp only [Option.some.injEq] at h
            exact Or.inl ⟨kind, s2.takeWhile Char.isDigit, hkmem, hdsne,
              all_takeWhile _ _, h.symm⟩
          · rw [if_neg hsuf] at h
            by_cases hal : (kind == str "album") = true
            · rw [if_pos hal] at h
              have hkind : kind = str "album" := by simpa using hal
              cases htr : stripPre (str "/track/") (s2.dropWhile Char.isDigit) with
              | none => rw [htr] at h; simp at h
              | some s4 =>
                rw [htr] at h
                simp only at h
                by_cases hds2 : (s4.takeWhile Char.isDigit == ([] : Str)) = true
                · rw [if_pos hds2] at h; simp at h
                · rw [if_neg hds2] at h
                  by_cases hsuf2 : (tidalSuffixOk (s4.dropWhile Char.isDigit)) = true
                  · rw [if_pos hsuf2] at h
                    simp only [Option.some.injEq] at h
                    refine Or.inr ⟨s2.takeWhile Char.isDigit, s4.takeWhile Char.isDigit,
                      hdsne, all_takeWhile _ _, by simpa using hds2, all_takeWhile _ _, ?_⟩
                    rw [← h, hkind]
                  · rw [if_neg hsuf2] at h; simp at h
            · rw [if_neg hal] at h; simp at h
    · have : tidalPath (c :: s1) = none := by
        cases c
        simp_all [tidalPath]
      rw [this] at h; simp at h

theorem tidalMatch_some {u : Str} {ms : List Str} (h : tidalMatch u = some ms) :
    ∃ p, ms = [u, p] ∧
      ((∃ kind ds, kind ∈ tidalKinds ∧ ds ≠ [] ∧ ds.all Char.isDigit ∧
        p = '/' :: (kind ++ '/' :: ds)) ∨
       (∃ d1 d2, d1 ≠ [] ∧ d1.all Char.isDigit ∧ d2 ≠ [] ∧ d2.all Char.isDigit ∧
        p = '/' :: (str "album" ++ '/' :: d1 ++ str "/track/" ++ d2))) := by
  simp only [tidalMatch] at h
  split at h
  · simp at h
  · split at h
    · simp at h
    · split at h
      · simp at h
      · next s1 s2 p hp =>
        simp only [Option.some.injEq] at h
        exact ⟨p, h.symm, tidalPath_some hp⟩

theorem albumTrackMatch_some {p a t : Str} (h : albumTrackMatch p = some (a, t)) :
    a ≠ [] ∧ a.all Char.isDigit ∧ t ≠ [] ∧ t.all Char.isDigit ∧
      p = str "/album/" ++ a ++ str "/track/" ++ t := by
  simp only [albumTrackMatch] at h
  split at h
  · simp at h
  · next r h1 =>
    split at h
    · simp at h
    · next hds =>
      split at h
      · simp at h
      · next r2 h2 =>
        split at h
        · next hg =>
          simp only [Option.some.injEq, Prod.mk.injEq] at h
          simp only [Bool.and_eq_true, bne_iff_ne, ne_eq] at hg
          obtain ⟨ha, ht⟩ := h
          subst ha; subst ht
          refine ⟨by simpa using hds, all_takeWhile _ _, hg.1, hg.2, ?_⟩
          rw [stripPre_eq_some h1]
          have hsplit : r = r.takeWhile Char.isDigit ++ r.dropWhile Char.isDigit :=
            (List.takeWhile_append_dropWhile Char.isDigit r).symm
          rw [stripPre_eq_some h2] at hsplit
          nth_rewrite 1 [hsplit]
          simp
        · simp at h

theorem albumTrackMatch_long (d1 d2 : Str) (h1 : d1 ≠ []) (hd1 : d1.all Char.isDigit)
    (h2 : d2 ≠ []) (hd2 : d2.all Char.isDigit) :
    albumTrackMatch (str "/album/" ++ d1 ++ str "/track/" ++ d2) = some (d1, d2) := by
  have htr : str "/track/" ++ d2 = '/' :: (str "track/" ++ d2) := rfl
  have hdec : str "/album/" ++ d1 ++ str "/track/" ++ d2 =
      str "/album/" ++ (d1 ++ '/' :: (str "track/" ++ d2)) := by
    rw [← htr]; simp
  have hsl : Char.isDigit '/' = false := by decide
  have htw : (d1 ++ '/' :: (str "track/" ++ d2)).takeWhile Char.isDigit = d1 :=
    takeWhile_append_cons _ _ hd1 hsl
  have hdw : (d1 ++ '/' :: (str "track/" ++ d2)).dropWhile Char.isDigit =
      '/' :: (str "track/" ++ d2) := dropWhile_append_cons _ _ hd1 hsl
  have hst : stripPre (str "/track/") ('/' :: (str "track/" ++ d2)) = some d2 :=
    stripPre_append (str "/track/") d2
  rw [hdec]
  simp [albumTrackMatch, stripPre_append, htw, hdw, hst, h1, h2, hd2]

theorem geocitiesMatch_some {u : Str} {ms : List Str} (h : geocitiesMatch u = some ms) :
    ∃ t, ms = [u, t] := by
  simp only [geocitiesMatch] at h
  split at h
  · simp at h
  · split at h
    · next t _ =>
      simp only [Option.some.injEq] at h
      exact ⟨t, h.symm⟩
    · simp at h

theorem storeTail_eq_true {r : Str} (h : storeTail r = true) :
    (∃ a b r2, r = '/' :: a :: b :: (str "/store" ++ r2)) ∨
    (∃ r2, r = str "/store" ++ r2) := by
  simp only [storeTail, Bool.or_eq_true] at h
  rcases h with h | h
  · split at h
    · next a b rest =>
      simp only [Bool.and_eq_true] at h
      obtain ⟨-, h2⟩ := h
      split at h2
      · next r2 hsp =>
        exact Or.inl ⟨a, b, r2, by rw [stripPre_eq_some hsp]⟩
      · simp at h2
    · simp at h
  · split at h
    · next r2 hsp => exact Or.inr ⟨r2, stripPre_eq_some hsp⟩
    · simp at h

theorem tidalStoreMatch_some {u : Str} {ms : List Str} (h : tidalStoreMatch u = some ms) :
    ms = [u] ∧ ∃ s1, stripScheme u = some s1 ∧
      ((∃ r, s1 = str "store.tidal.com" ++ r) ∨
       (∃ r, s1 = str "tidal.com" ++ r ∧ storeTail r = true)) := by
  simp only [tidalStoreMatch] at h
  split at h
  · simp at h
  · next s1 hs =>
    split at h
    · next r hsp =>
      split at h
      · simp only [Option.some.injEq] at h
        exact ⟨h.symm, s1, hs, Or.inl ⟨r, stripPre_eq_some hsp⟩⟩
      · simp at h
    · split at h
      · simp at h
      · next r hsp =>
        split at h
        · next hst =>
          simp only [Option.some.injEq] at h
          exact ⟨h.symm, s1, hs, Or.inr ⟨r, stripPre_eq_some hsp, hst⟩⟩
        · simp at h

theorem recmusicMatch_some {u : Str} {ms : List Str} (h : recmusicMatch u = some ms) :
    ∃ ty ids r, ms = [u, ty, ids] ∧ stripScheme u = some (str "recmusic.jp/" ++ r) := by
  simp only [recmusicMatch] at h
  split at h
  · simp at h
  · next s1 hs =>
    split at h
    · simp at h
    · next r hsp =>
      split at h
      · simp at h
      · next ty r2 hty =>
        split at h
        · simp at h
        · next r3 hid =>
          split at h
          · simp only [Option.some.injEq] at h
            exact ⟨ty, r3, r, h.symm, by rw [← stripPre_eq_some hsp]; exact hs⟩
          · simp at h

/-! ### Pairwise disjointness of the four patterns -/

theorem stripFirst_tidalHosts_store (r : Str) :
    stripFirst tidalHosts (str "store.tidal.com" ++ r) = none := by
  have h1 : stripPre (str "desktop.tidal.com") (str "store.tidal.com" ++ r) = none :=
    stripPre_mismatch [] (str "esktop.tidal.com") (str "tore.tidal.com" ++ r) (by decide)
  have h2 : stripPre (str "desktop.stage.tidal.com") (str "store.tidal.com" ++ r) = none :=
    stripPre_mismatch [] (str "esktop.stage.tidal.com") (str "tore.tidal.com" ++ r) (by decide)
  have h3 : stripPre (str "listen.tidal.com") (str "store.tidal.com" ++ r) = none :=
    stripPre_mismatch [] (str "isten.tidal.com") (str "tore.tidal.com" ++ r) (by decide)
  have h4 : stripPre (str "www.tidal.com") (str "store.tidal.com" ++ r) = none :=
    stripPre_mismatch [] (str "ww.tidal.com") (str "tore.tidal.com" ++ r) (by decide)
  have h5 : stripPre (str "tidal.com") (str "store.tidal.com" ++ r) = none :=
    stripPre_mismatch [] (str "idal.com") (str "tore.tidal.com" ++ r) (by decide)
  simp [tidalHosts, stripFirst, h1, h2, h3, h4, h5]

theorem stripFirst_tidalHosts_recmusic (r : Str) :
    stripFirst tidalHosts (str "recmusic.jp/" ++ r) = none := by
  have h1 : stripPre (str "desktop.tidal.com") (str "recmusic.jp/" ++ r) = none :=
    stripPre_mismatch [] (str "esktop.tidal.com") (str "ecmusic.jp/" ++ r) (by decide)
  have h2 : stripPre (str "desktop.stage.tidal.com") (str "recmusic.jp/" ++ r) = none :=
    stripPre_mismatch [] (str "esktop.stage.tidal.com") (str "ecmusic.jp/" ++ r) (by decide)
  have h3 : stripPre (str "listen.tidal.com") (str "recmusic.jp/" ++ r) = none :=
    stripPre_mismatch [] (str "isten.tidal.com") (str "ecmusic.jp/" ++ r) (by decide)
  have h4 : stripPre (str "www.tidal.com") (str "recmusic.jp/" ++ r) = none :=
    stripPre_mismatch [] (str "ww.tidal.com") (str "ecmusic.jp/" ++ r) (by decide)
  have h5 : stripPre (str "tidal.com") (str "recmusic.jp/" ++ r) = none :=
    stripPre_mismatch [] (str "idal.com") (str "ecmusic.jp/" ++ r) (by decide)
  simp [tidalHosts, stripFirst, h1, h2, h3, h4, h5]

theorem stripKind_store (r : Str) : stripKind (str "store" ++ r) = none := by
  have h1 : stripPre (str "album/") (str "store" ++ r) = none :=
    stripPre_mismatch [] (str "lbum/") (str "tore" ++ r) (by decide)
  have h2 : stripPre (str "artist/") (str "store" ++ r) = none :=
    stripPre_mismatch [] (str "rtist/") (str "tore" ++ r) (by decide)
  have h3 : stripPre (str "track/") (str "store" ++ r) = none :=
    stripPre_mismatch [] (str "rack/") (str "tore" ++ r) (by decide)
  have h4 : stripPre (str "video/") (str "store" ++ r) = none :=
    stripPre_mismatch [] (str "ideo/") (str "tore" ++ r) (by decide)
  simp [stripKind, h1, h2, h3, h4]

/-- A URL matched by the Tidal streaming pattern is not matched by the
GeoCities pattern. -/
theorem tidal_not_geo {u : Str} {ms : List Str} (h : tidalMatch u = some ms) :
    geocitiesMatch u = none := by
  simp only [tidalMatch] at h
  split at h
  · simp at h
  · next s1 hs =>
    split at h
    · simp at h
    · next s2 hf =>
      obtain ⟨a, ha, hdec⟩ := stripFirst_eq_some hf
      subst hdec
      simp only [tidalHosts, List.mem_cons, List.not_mem_nil, or_false] at ha
      rcases ha with h1 | h1 | h1 | h1 | h1 <;> subst h1
      · refine geocitiesMatch_eq_none hs (geoTail_ne_g _ (by decide)) ?_
        intro s2' heq
        rw [show str "desktop.tidal.com" ++ s2 =
            str "desktop" ++ '.' :: (str "tidal.com" ++ s2) from rfl] at heq
        rw [stripLabelDot_eq _ _ (by decide) (by decide)] at heq
        rw [← Option.some.injEq _ _ |>.mp heq] at *
        exact geoTail_ne_g _ (by decide)
      · refine geocitiesMatch_eq_none hs (geoTail_ne_g _ (by decide)) ?_
        intro s2' heq
        rw [show str "desktop.stage.tidal.com" ++ s2 =
            str "desktop" ++ '.' :: (str "stage.tidal.com" ++ s2) from rfl] at heq
        rw [stripLabelDot_eq _ _ (by decide) (by decide)] at heq
        rw [← Option.some.injEq _ _ |>.mp heq] at *
        exact geoTail_ne_g _ (by decide)
      · refine geocitiesMatch_eq_none hs (geoTail_ne_g _ (by decide)) ?_
        intro s2' heq
        rw [show str "listen.tidal.com" ++ s2 =
            str "listen" ++ '.' :: (str "tidal.com" ++ s2) from rfl] at heq
        rw [stripLabelDot_eq _ _ (by decide) (by decide)] at heq
        rw [← Option.some.injEq _ _ |>.mp heq] at *
        exact geoTail_ne_g _ (by decide)
      · refine geocitiesMatch_eq_none hs (geoTail_ne_g _ (by decide)) ?_
        intro s2' heq
        rw [show str "www.tidal.com" ++ s2 =
            str "www" ++ '.' :: (str "tidal.com" ++ s2) from rfl] at heq
        rw [stripLabelDot_eq _ _ (by decide) (by decide)] at heq
        rw [← Option.some.injEq _ _ |>.mp heq] at *
        exact geoTail_ne_g _ (by decide)
      · refine geocitiesMatch_eq_none hs (geoTail_ne_g _ (by decide)) ?_
        intro s2' heq
        rw [show str "tidal.com" ++ s2 =
            str "tidal" ++ '.' :: (str "com" ++ s2) from rfl] at heq
        rw [stripLabelDot_eq _ _ (by decide) (by decide)] at heq
        rw [← Option.some.injEq _ _ |>.mp heq] at *
        exact geoTail_ne_g _ (by decide)

/-- A URL matched by the Tidal Store pattern is not matched by the Tidal
streaming pattern. -/
theorem store_not_tidal {u : Str} {ms : List Str} (h : tidalStoreMatch u = some ms) :
    tidalMatch u = none := by
  obtain ⟨-, s1, hs, hcase⟩ := tidalStoreMatch_some h
  rcases hcase with ⟨r, hr⟩ | ⟨r, hr, hst⟩
  · subst hr
    simp [tidalMatch, hs, stripFirst_tidalHosts_store]
  · subst hr
    rcases storeTail_eq_true hst with ⟨a, b, r2, hr2⟩ | ⟨r2, hr2⟩
    · subst hr2
      have hb : stripBrowse ('/' :: a :: b :: (str "/store" ++ r2)) =
          '/' :: a :: b :: (str "/store" ++ r2) := by
        have := stripPre_browse_slash3 a b (str "store" ++ r2)
        simp only [stripBrowse]
        rw [show str "/store" ++ r2 = '/' :: (str "store" ++ r2) from rfl, this]
      have hp : tidalPath ('/' :: a :: b :: (str "/store" ++ r2)) = none := by
        rw [show ('/' :: a :: b :: (str "/store" ++ r2) : Str) =
          '/' :: (a :: b :: '/' :: (str "store" ++ r2)) from rfl]
        simp [tidalPath, stripKind_slash3]
      simp [tidalMatch, hs, stripFirst_tidal, hb, hp]
    · subst hr2
      have hb : stripBrowse (str "/store" ++ r2) = str "/store" ++ r2 := by
        have h1 : stripPre (str "/browse") (str "/store" ++ r2) = none :=
          stripPre_mismatch (str "/") (str "rowse") (str "tore" ++ r2) (by decide)
        simp [stripBrowse, h1]
      have hp : tidalPath (str "/store" ++ r2) = none := by
        rw [show str "/store" ++ r2 = '/' :: (str "store" ++ r2) from rfl]
        simp [tidalPath, stripKind_store]
      simp [tidalMatch, hs, stripFirst_tidal, hb, hp]

/-- A URL matched by the Tidal Store pattern is not matched by the
GeoCities pattern. -/
theorem store_not_geo {u : Str} {ms : List Str} (h : tidalStoreMatch u = some ms) :
    geocitiesMatch u = none := by
  obtain ⟨-, s1, hs, hcase⟩ := tidalStoreMatch_some h
  rcases hcase with ⟨r, hr⟩ | ⟨r, hr, -⟩ <;> subst hr
  · refine geocitiesMatch_eq_none hs (geoTail_ne_g _ (by decide)) ?_
    intro s2' heq
    rw [show str "store.tidal.com" ++ r =
        str "store" ++ '.' :: (str "tidal.com" ++ r) from rfl] at heq
    rw [stripLabelDot_eq _ _ (by decide) (by decide)] at heq
    rw [← Option.some.injEq _ _ |>.mp heq] at *
    exact geoTail_ne_g _ (by decide)
  · refine geocitiesMatch_eq_none hs (geoTail_ne_g _ (by decide)) ?_
    intro s2' heq
    rw [show str "tidal.com" ++ r =
        str "tidal" ++ '.' :: (str "com" ++ r) from rfl] at heq
    rw [stripLabelDot_eq _ _ (by decide) (by decide)] at heq
    rw [← Option.some.injEq _ _ |>.mp heq] at *
    exact geoTail_ne_g _ (by decide)

/-- A URL matched by the RecMusic pattern is not matched by the Tidal
streaming pattern. -/
theorem rec_not_tidal {u : Str} {ms : List Str} (h : recmusicMatch u = some ms) :
    tidalMatch u = none := by
  obtain ⟨ty, ids, r, -, hs⟩ := recmusicMatch_some h
  simp [tidalMatch, hs, stripFirst_tidalHosts_recmusic]

/-- A URL matched by the RecMusic pattern is not matched by the GeoCities
pattern. -/
theorem rec_not_geo {u : Str} {ms : List Str} (h : recmusicMatch u = some ms) :
    geocitiesMatch u = none := by
  obtain ⟨ty, ids, r, -, hs⟩ := recmusicMatch_some h
  refine geocitiesMatch_eq_none hs (geoTail_ne_g _ (by decide)) ?_
  intro s2' heq
  rw [show str "recmusic.jp/" ++ r =
      str "recmusic" ++ '.' :: (str "jp/" ++ r) from rfl] at heq
  rw [stripLabelDot_eq _ _ (by decide) (by decide)] at heq
  rw [← Option.some.injEq _ _ |>.mp heq] at *
  exact geoTail_ne_g _ (by decide)

/-- A URL matched by the RecMusic pattern is not matched by the Tidal
Store pattern. -/
theorem rec_not_store {u : Str} {ms : List Str} (h : recmusicMatch u = some ms) :
    tidalStoreMatch u = none := by
  obtain ⟨ty, ids, r, -, hs⟩ := recmusicMatch_some h
  have h1 : stripPre (str "store.tidal.com") (str "recmusic.jp/" ++ r) = none :=
    stripPre_mismatch [] (str "tore.tidal.com") (str "ecmusic.jp/" ++ r) (by decide)
  have h2 : stripPre (str "tidal.com") (str "recmusic.jp/" ++ r) = none :=
    stripPre_mismatch [] (str "idal.com") (str "ecmusic.jp/" ++ r) (by decide)
  simp [tidalStoreMatch, hs, h1, h2]

/-! ### Rule-body characterizations -/

theorem geocitiesUpdateRels_eq (d : date) (rels : List relInfo) :
    geocitiesUpdateRels d rels =
      (rels.filter (fun r => !r.ended)).map (fun r => { r with ended := true, endDate := d }) := by
  induction rels with
  | nil => rfl
  | cons r rest ih =>
    by_cases h : r.ended <;> simp [geocitiesUpdateRels, h, ih]

theorem geocitiesUpdateRels_nil (d : date) (rels : List relInfo)
    (h : ∀ r ∈ rels, r.ended) : geocitiesUpdateRels d rels = [] := by
  rw [geocitiesUpdateRels_eq]
  have : rels.filter (fun r => !r.ended) = [] := by
    rw [List.filter_eq_nil_iff]
    intro r hr
    simp [h r hr]
  simp [this]

theorem geocitiesUpdateRels_mem {d : date} {rels : List relInfo} {x : relInfo}
    (h : x ∈ geocitiesUpdateRels d rels) :
    ∃ r ∈ rels, ¬r.ended ∧ x = { r with ended := true, endDate := d } := by
  rw [geocitiesUpdateRels_eq] at h
  simp only [List.mem_map, List.mem_filter, Bool.not_eq_eq_eq_not, Bool.not_true] at h
  obtain ⟨r, ⟨hr, he⟩, hx⟩ := h
  exact ⟨r, hr, by simp [he], hx.symm⟩

theorem geocitiesUpdateRels_covers {d : date} {rels : List relInfo} {r : relInfo}
    (hr : r ∈ rels) (he : ¬r.ended) :
    ∃ x ∈ geocitiesUpdateRels d rels, x.id = r.id := by
  refine ⟨{ r with ended := true, endDate := d }, ?_, rfl⟩
  rw [geocitiesUpdateRels_eq]
  simp only [List.mem_map, List.mem_filter]
  exact ⟨r, ⟨hr, by simp [he]⟩, rfl⟩

theorem tidalStoreRel_frame (r : relInfo) :
    (tidalStoreRel r).id = r.id ∧ (tidalStoreRel r).backward = r.backward ∧
    (tidalStoreRel r).beginDate = r.beginDate ∧ (tidalStoreRel r).linkPhrase = r.linkPhrase ∧
    (tidalStoreRel r).targetMBID = r.targetMBID ∧ (tidalStoreRel r).targetName = r.targetName ∧
    (tidalStoreRel r).targetType = r.targetType := by
  obtain ⟨i, lt, lp, bd, ed, en, bw, tm, tn, tt⟩ := r
  by_cases h1 : (tt == str "artist") = true
  · cases en <;> simp [tidalStoreRel, h1]
  · by_cases h2 : (tt == str "release") = true
    · cases en <;> simp [tidalStoreRel, h1, h2]
    · by_cases h3 : (tt == str "recording") = true
      · cases en <;> simp [tidalStoreRel, h1, h2, h3]
      · cases en <;> simp [tidalStoreRel, h1, h2, h3]

theorem tidalStoreRel_idem (r : relInfo) : tidalStoreRel (tidalStoreRel r) = tidalStoreRel r := by
  obtain ⟨i, lt, lp, bd, ed, en, bw, tm, tn, tt⟩ := r
  by_cases h1 : (tt == str "artist") = true
  · cases en <;> simp [tidalStoreRel, h1]
  · by_cases h2 : (tt == str "release") = true
    · cases en <;> simp [tidalStoreRel, h1, h2]
    · by_cases h3 : (tt == str "recording") = true
      · cases en <;> simp [tidalStoreRel, h1, h2, h3]
      · cases en <;> simp [tidalStoreRel, h1, h2, h3]

theorem tidalStoreUpdateRels_mem {rels : List relInfo} {x : relInfo}
    (h : x ∈ tidalStoreUpdateRels rels) : ∃ r ∈ rels, x = tidalStoreRel r ∧ x ≠ r := by
  induction rels with
  | nil => simp [tidalStoreUpdateRels] at h
  | cons r rest ih =>
    simp only [tidalStoreUpdateRels] at h
    by_cases hc : tidalStoreRel r ≠ r
    · rw [if_pos hc] at h
      rcases List.mem_cons.mp h with h1 | h1
      · exact ⟨r, by simp, h1, by rw [h1]; exact hc⟩
      · obtain ⟨r2, hr2, hx⟩ := ih h1
        exact ⟨r2, by simp [hr2], hx⟩
    · rw [if_neg hc] at h
      obtain ⟨r2, hr2, hx⟩ := ih h
      exact ⟨r2, by simp [hr2], hx⟩

theorem tidalStoreUpdateRels_nil {rels : List relInfo}
    (h : ∀ r ∈ rels, tidalStoreRel r = r) : tidalStoreUpdateRels rels = [] := by
  induction rels with
  | nil => rfl
  | cons r rest ih =>
    simp only [tidalStoreUpdateRels]
    rw [if_neg (by simpa using h r (by simp)), ih (fun r2 hr2 => h r2 (by simp [hr2]))]

theorem tidalStoreUpdateRels_covers {rels : List relInfo} {r : relInfo}
    (hr : r ∈ rels) (hne : tidalStoreRel r ≠ r) :
    ∃ x ∈ tidalStoreUpdateRels rels, x.id = r.id := by
  induction rels with
  | nil => simp at hr
  | cons r1 rest ih =>
    simp only [tidalStoreUpdateRels]
    rcases List.mem_cons.mp hr with h1 | h1
    · subst h1
      rw [if_pos hne]
      exact ⟨tidalStoreRel r, by simp, (tidalStoreRel_frame r).1⟩
    · by_cases hc : tidalStoreRel r1 ≠ r1
      · rw [if_pos hc]
        obtain ⟨x, hx, hid⟩ := ih h1
        exact ⟨x, by simp [hx], hid⟩
      · rw [if_neg hc]
        exact ih h1

theorem recmusicLoop_fst (ty ids : Str) (rels : List relInfo) :
    (recmusicLoop ty ids rels).1 =
      (rels.filter (fun r => !r.ended)).map
        (fun r => { r with ended := true, endDate := recmusicEndDate }) := by
  induction rels with
  | nil => rfl
  | cons r rest ih =>
    by_cases h : r.ended
    · have hr1 : (if !r.ended then { r with ended := true, endDate := recmusicEndDate }
          else r) = r := by simp [h]
      simp only [recmusicLoop, hr1]
      rw [if_neg (by simp)]
      simp [h, ih]
    · have hne : ¬({ r with ended := true, endDate := recmusicEndDate } : relInfo) = r := by
        intro he
        have h2 := congrArg relInfo.ended he
        simp only at h2
        exact h (by rw [← h2])
      simp only [recmusicLoop]
      rw [if_pos (by simp [h]; exact hne)]
      simp [h, ih]

theorem recmusicLoop_snd (ty ids : Str) (rels : List relInfo) :
    (recmusicLoop ty ids rels).2 =
      if missingTowerRecordsPairs (ty, ids) then []
      else rels.map (fun r =>
        { r with
          id := 0
          beginDate := recmusicEndDate
          endDate := ⟨0, 0, 0⟩
          ended := false }) := by
  induction rels with
  | nil => simp [recmusicLoop]
  | cons r rest ih =>
    by_cases hm : missingTowerRecordsPairs (ty, ids) = true
    · simp only [recmusicLoop, hm, if_true]
      rw [ih]
      simp [hm]
    · simp only [recmusicLoop, Bool.not_eq_true] at *
      rw [if_neg (by simp [hm])]
      simp only [hm, Bool.false_eq_true, if_false, List.map_cons, List.cons.injEq, true_and]
      rw [ih]
      simp [hm]

/-! ### Generic match-engine lemmas -/

theorem doRewrite_eq_none_of_all_none {rm : List RulePair} {u : Str} (rels : List relInfo)
    (h : ∀ e ∈ rm, e.1 u = none) : doRewrite rm u rels = none := by
  induction rm with
  | nil => rfl
  | cons e rest ih =>
    obtain ⟨re, fn⟩ := e
    have h1 : re u = none := h (re, fn) (by simp)
    simp only [doRewrite, h1]
    exact ih (fun e he => h e (by simp [he]))

theorem doRewrite_eq_applyRule {rm : List RulePair} {u : Str} {e : RulePair} {ms : List Str}
    (rels : List relInfo) (he : e ∈ rm) (hm : e.1 u = some ms)
    (huniq : ∀ e' ∈ rm, ∀ ms', e'.1 u = some ms' → e' = e) :
    doRewrite rm u rels = applyRule e.2 ms u rels := by
  induction rm with
  | nil => simp at he
  | cons e1 rest ih =>
    obtain ⟨re, fn⟩ := e1
    rcases List.mem_cons.mp he with h1 | h1
    · subst h1
      have hm2 : re u = some ms := hm
      simp only [doRewrite, hm2]
    · cases hre : re u with
      | some ms1 =>
        have he2 : (re, fn) = e := huniq (re, fn) (by simp) ms1 hre
        subst he2
        have hm2 : re u = some ms := hm
        rw [hm2] at hre
        simp only [Option.some.injEq] at hre
        subst hre
        simp only [doRewrite, hm2]
      | none =>
        simp only [doRewrite, hre]
        exact ih h1 (fun e' he' ms' hm' => huniq e' (by simp [he']) ms' hm')

/-! ### Applying a result's relationship updates -/

theorem applyUpdates_mem {rels updated : List relInfo} {x : relInfo}
    (h : x ∈ applyUpdates rels updated) :
    x ∈ updated ∨ (x ∈ rels ∧ updated.find? (fun u => u.id == x.id) = none) := by
  simp only [applyUpdates, List.mem_map] at h
  obtain ⟨r, hr, hx⟩ := h
  cases hf : updated.find? (fun u => u.id == r.id) with
  | some u =>
    rw [hf] at hx
    exact Or.inl (by rw [← hx]; exact List.mem_of_find?_eq_some hf)
  | none =>
    rw [hf] at hx
    subst hx
    exact Or.inr ⟨hr, hf⟩

/-! ### Transform-result inversions -/

theorem tidalFn_some {ms : List Str} {rels : List relInfo} {res : rewriteResult}
    (h : tidalFn ms rels = some res) : res.updatedRels = [] ∧ res.newURLs = [] := by
  simp only [tidalFn] at h
  split at h
  · split at h
    · simp only [Option.some.injEq] at h
      rw [← h]
      exact ⟨rfl, rfl⟩
    · split at h
      · simp only [Option.some.injEq] at h
        rw [← h]
        exact ⟨rfl, rfl⟩
      · simp at h
  · simp only [Option.some.injEq] at h
    rw [← h]
    exact ⟨rfl, rfl⟩

theorem geocitiesFn_some {ms : List Str} {rels : List relInfo} {res : rewriteResult}
    (h : geocitiesFn ms rels = some res) :
    res.rewritten = ms.getD 0 [] ∧
    res.updatedRels = geocitiesUpdateRels
      (if ms.getD 1 [] == str "jp" || ms.getD 1 [] == str "co.jp" then geocitiesJapanEndDate
       else geocitiesEndDate) rels ∧
    res.newURLs = [] ∧ res.updatedRels ≠ [] := by
  simp only [geocitiesFn] at h
  by_cases hc : (ms.getD 1 [] == str "jp" || ms.getD 1 [] == str "co.jp") = true
  · simp only [hc, if_true] at h ⊢
    split at h
    · simp at h
    · next hne =>
      simp only [Option.some.injEq] at h
      rw [← h]
      refine ⟨rfl, rfl, rfl, ?_⟩
      simpa using hne
  · have hc2 : (ms.getD 1 [] == str "jp" || ms.getD 1 [] == str "co.jp") = false := by
      simpa using hc
    simp only [hc2, Bool.false_eq_true, if_false] at h ⊢
    split at h
    · simp at h
    · next hne =>
      simp only [Option.some.injEq] at h
      rw [← h]
      refine ⟨rfl, rfl, rfl, ?_⟩
      simpa using hne

theorem tidalStoreFn_some {ms : List Str} {rels : List relInfo} {res : rewriteResult}
    (h : tidalStoreFn ms rels = some res) :
    res.rewritten = ms.getD 0 [] ∧ res.updatedRels = tidalStoreUpdateRels rels ∧
    res.newURLs = [] ∧ res.updatedRels ≠ [] := by
  simp only [tidalStoreFn] at h
  split at h
  · simp at h
  · next hne =>
    simp only [Option.some.injEq] at h
    rw [← h]
    refine ⟨rfl, rfl, rfl, ?_⟩
    simpa using hne

theorem recmusicFn_some {ms : List Str} {rels : List relInfo} {res : rewriteResult}
    (h : recmusicFn ms rels = some res) :
    rels ≠ [] ∧ res.rewritten = ms.getD 0 [] ∧
    res.updatedRels = (recmusicLoop (ms.getD 1 []) (ms.getD 2 []) rels).1 ∧
    res.newURLs =
      (if (recmusicLoop (ms.getD 1 []) (ms.getD 2 []) rels).2 ≠ [] then
        [⟨str "https://music.tower.jp/" ++ ms.getD 1 [] ++ str "/detail/" ++ ms.getD 2 [],
          (recmusicLoop (ms.getD 1 []) (ms.getD 2 []) rels).2⟩]
       else []) ∧
    res.editNote = recmusicEditNote := by
  simp only [recmusicFn] at h
  split at h
  · simp at h
  · next hne =>
    simp only [Option.some.injEq] at h
    rw [← h]
    exact ⟨by simpa using hne, rfl, rfl, rfl, rfl⟩

/-! ### Batch-response lemmas -/

theorem postRelEditLoop_fst (i : Nat) (edits : List editResponse) :
    (postRelEditLoop i edits).1 =
      (edits.takeWhile (fun ed => ed.response == 1)).map (fun ed => ed.relationship_id) := by
  induction edits generalizing i with
  | nil => rfl
  | cons ed rest ih =>
    by_cases h : ed.response = 1
    · simp only [postRelEditLoop, h]
      rw [if_neg (by simp)]
      simp [List.takeWhile_cons, h, ih (i + 1)]
    · simp only [postRelEditLoop]
      rw [if_pos h]
      simp [List.takeWhile_cons, h]

theorem postRelEditLoop_all (i : Nat) (edits : List editResponse)
    (h : ∀ ed ∈ edits, ed.response = 1) :
    postRelEditLoop i edits = (edits.map (fun ed => ed.relationship_id), none) := by
  induction edits generalizing i with
  | nil => rfl
  | cons ed rest ih =>
    have h1 : ed.response = 1 := h ed (by simp)
    simp only [postRelEditLoop, h1]
    rw [if_neg (by simp)]
    rw [ih (i + 1) (fun e he => h e (by simp [he]))]
    simp

theorem postRelEditLoop_fail (i : Nat) (before : List editResponse) (ed : editResponse)
    (post : List editResponse) (hb : ∀ e ∈ before, e.response = 1) (hed : ed.response ≠ 1) :
    postRelEditLoop i (before ++ ed :: post) =
      (before.map (fun e => e.relationship_id),
       some ⟨i + before.length, ed.edit_type, ed.response⟩) := by
  induction before generalizing i with
  | nil =>
    simp only [List.nil_append, postRelEditLoop]
    rw [if_pos hed]
    simp
  | cons e1 rest ih =>
    have h1 : e1.response = 1 := hb e1 (by simp)
    simp only [List.cons_append, postRelEditLoop, h1]
    rw [if_neg (by simp)]
    simp only [List.append_eq]
    rw [ih (i + 1) (fun e he => hb e (by simp [he]))]
    have harith : i + 1 + rest.length = i + (rest.length + 1) := by omega
    simp [harith]

/-! ## Claim theorems -/

/-- C5: `setRelEditVals` fails with the no-changes error when the original
relationship is present and the desired relationship is structurally equal
to it, and fails with the invalid-rel error when the original is absent
but the desired relationship's id is not 0; in both cases the parameter
map is returned unchanged (no field has been emitted). -/
theorem claim_C5_setRelEditVals_guards :
    (∀ (vals : Vals) (pre : Str) (o : relInfo),
      setRelEditVals vals pre o (some o) = (vals, some (.noChanges o.id))) ∧
    (∀ (vals : Vals) (pre : Str) (rel : relInfo), rel.id ≠ 0 →
      setRelEditVals vals pre rel none = (vals, some (.invalidRel rel.id))) := by
  constructor
  · intro vals pre o
    simp [setRelEditVals]
  · intro vals pre rel h
    simp [setRelEditVals, h]

theorem claim_C5_setRelEditVals_guards_witness :
    setRelEditVals [] [] (default : relInfo) (some (default : relInfo)) =
      ([], some (.noChanges (default : relInfo).id)) ∧
    ({ (default : relInfo) with id := 7 } : relInfo).id ≠ 0 ∧
    setRelEditVals [] [] ({ (default : relInfo) with id := 7 }) none =
      ([], some (.invalidRel 7)) :=
  ⟨claim_C5_setRelEditVals_guards.1 [] [] default, by decide,
   claim_C5_setRelEditVals_guards.2 [] [] ({ (default : relInfo) with id := 7 }) (by decide)⟩

/-- C9: the batch-response interpretation of `postRelEdit` returns the
relationship ids of the longest prefix of edits whose response code is 1;
when all edits succeed it returns every relationship id in order with no
failure; and when the response sequence is a run of successes followed by
a failing edit, it returns the ids of that prefix together with the
failing edit's index and response code. -/
theorem claim_C9_postRelEdit_batch :
    (∀ edits : List editResponse,
      (postRelEditResult edits).1 =
        (edits.takeWhile (fun ed => ed.response == 1)).map (fun ed => ed.relationship_id)) ∧
    (∀ edits : List editResponse, (∀ ed ∈ edits, ed.response = 1) →
      postRelEditResult edits = (edits.map (fun ed => ed.relationship_id), none)) ∧
    (∀ (before : List editResponse) (ed : editResponse) (post : List editResponse),
      (∀ e ∈ before, e.response = 1) → ed.response ≠ 1 →
      postRelEditResult (before ++ ed :: post) =
        (before.map (fun e => e.relationship_id),
         some ⟨before.length, ed.edit_type, ed.response⟩)) := by
  refine ⟨fun edits => postRelEditLoop_fst 0 edits,
    fun edits h => postRelEditLoop_all 0 edits h,
    fun before ed post hb hed => ?_⟩
  have := postRelEditLoop_fail 0 before ed post hb hed
  simpa using this

theorem claim_C9_postRelEdit_batch_witness :
    postRelEditResult [⟨7, 1, 1⟩, ⟨0, 2, 5⟩, ⟨3, 1, 1⟩] = ([7], some ⟨1, 2, 5⟩) := by
  have h := claim_C9_postRelEdit_batch.2.2 [⟨7, 1, 1⟩] ⟨0, 2, 5⟩ [⟨3, 1, 1⟩]
    (by decide) (by decide)
  simpa using h

/-- C10: frame invariant of the rewrite rules: every relationship placed in
a transform's `updatedRels` agrees with the input relationship it was
derived from on id, backward, beginDate, linkPhrase, targetMBID,
targetName and targetType (only linkTypeID, ended and endDate are ever
modified). -/
theorem claim_C10_updatedRels_frame :
    ∀ e ∈ urlRewrites, ∀ (ms : List Str) (rels : List relInfo) (res : rewriteResult),
      e.2 ms rels = some res →
      ∀ x ∈ res.updatedRels, ∃ r ∈ rels,
        x.id = r.id ∧ x.backward = r.backward ∧ x.beginDate = r.beginDate ∧
        x.linkPhrase = r.linkPhrase ∧ x.targetMBID = r.targetMBID ∧
        x.targetName = r.targetName ∧ x.targetType = r.targetType := by
  intro e he ms rels res hres x hx
  simp only [urlRewrites, List.mem_cons, List.not_mem_nil, or_false] at he
  rcases he with he | he | he | he <;> subst he
  · obtain ⟨h1, -⟩ := tidalFn_some hres
    rw [h1] at hx
    simp at hx
  · obtain ⟨-, h2, -, -⟩ := geocitiesFn_some hres
    rw [h2] at hx
    obtain ⟨r, hr, -, hxr⟩ := geocitiesUpdateRels_mem hx
    exact ⟨r, hr, by simp [hxr]⟩
  · obtain ⟨-, h2, -, -⟩ := tidalStoreFn_some hres
    rw [h2] at hx
    obtain ⟨r, hr, hxr, -⟩ := tidalStoreUpdateRels_mem hx
    have hf := tidalStoreRel_frame r
    rw [← hxr] at hf
    exact ⟨r, hr, hf⟩
  · obtain ⟨-, -, h2, -, -⟩ := recmusicFn_some hres
    rw [h2, recmusicLoop_fst] at hx
    simp only [List.mem_map, List.mem_filter] at hx
    obtain ⟨r, ⟨hr, -⟩, hxr⟩ := hx
    exact ⟨r, hr, by simp [← hxr]⟩

theorem claim_C10_updatedRels_frame_witness :
    ∃ r ∈ [sampleStoreRel],
      (tidalStoreRel sampleStoreRel).id = r.id ∧
      (tidalStoreRel sampleStoreRel).backward = r.backward ∧
      (tidalStoreRel sampleStoreRel).beginDate = r.beginDate ∧
      (tidalStoreRel sampleStoreRel).linkPhrase = r.linkPhrase ∧
      (tidalStoreRel sampleStoreRel).targetMBID = r.targetMBID ∧
      (tidalStoreRel sampleStoreRel).targetName = r.targetName ∧
      (tidalStoreRel sampleStoreRel).targetType = r.targetType := by
  refine claim_C10_updatedRels_frame (tidalStoreMatch, tidalStoreFn) (by simp [urlRewrites])
    [str "https://store.tidal.com/artist/1"] [sampleStoreRel]
    { rewritten := str "https://store.tidal.com/artist/1"
      updatedRels := [tidalStoreRel sampleStoreRel]
      newURLs := []
      editNote := tidalStoreEditNote }
    (by decide) (tidalStoreRel sampleStoreRel) (by decide)

/-! ### Dispatch lemmas: which rule the engine runs -/

theorem doRewrite_tidal {u : Str} {ms : List Str} (rels : List relInfo)
    (h : tidalMatch u = some ms) :
    doRewrite urlRewrites u rels = applyRule tidalFn ms u rels := by
  simp only [urlRewrites, doRewrite, h]

theorem doRewrite_geo {u : Str} {ms : List Str} (rels : List relInfo)
    (h : geocitiesMatch u = some ms) :
    doRewrite urlRewrites u rels = applyRule geocitiesFn ms u rels := by
  have ht : tidalMatch u = none := by
    cases htm : tidalMatch u with
    | none => rfl
    | some m => rw [tidal_not_geo htm] at h; exact absurd h (by simp)
  simp only [urlRewrites, doRewrite, ht, h]

theorem doRewrite_store {u : Str} {ms : List Str} (rels : List relInfo)
    (h : tidalStoreMatch u = some ms) :
    doRewrite urlRewrites u rels = applyRule tidalStoreFn ms u rels := by
  have ht : tidalMatch u = none := store_not_tidal h
  have hg : geocitiesMatch u = none := store_not_geo h
  simp only [urlRewrites, doRewrite, ht, hg, h]

theorem doRewrite_rec {u : Str} {ms : List Str} (rels : List relInfo)
    (h : recmusicMatch u = some ms) :
    doRewrite urlRewrites u rels = applyRule recmusicFn ms u rels := by
  have ht : tidalMatch u = none := rec_not_tidal h
  have hg : geocitiesMatch u = none := rec_not_geo h
  have hs : tidalStoreMatch u = none := rec_not_store h
  simp only [urlRewrites, doRewrite, ht, hg, hs, h]

/-- C7: for every URL matching the GeoCities pattern and every
relationship list, the rewritten name is the input URL itself; every
not-yet-ended relationship appears in `updatedRels` marked ended with end
date 2019-03-31 when the captured TLD is `jp` or `co.jp` and 2009-10-26
otherwise; already-ended relationships are not included; and when no
relationship was un-ended the engine yields no change. -/
theorem claim_C7_geocities_retirement (u : Str) (ms : List Str) (rels : List relInfo)
    (h : geocitiesMatch u = some ms) :
    ((∀ r ∈ rels, r.ended) → doRewrite urlRewrites u rels = none) ∧
    ((∃ r ∈ rels, ¬r.ended) → ∃ res, doRewrite urlRewrites u rels = some res ∧
      res.rewritten = u ∧
      res.updatedRels = (rels.filter (fun r => !r.ended)).map
        (fun r => { r with
          ended := true
          endDate := if ms.getD 1 [] == str "jp" || ms.getD 1 [] == str "co.jp"
            then (⟨2019, 3, 31⟩ : date) else ⟨2009, 10, 26⟩ }) ∧
      res.newURLs = []) := by
  obtain ⟨t, hms⟩ := geocitiesMatch_some h
  rw [doRewrite_geo rels h]
  constructor
  · intro hall
    have hnil := geocitiesUpdateRels_nil
      (if ms.getD 1 [] == str "jp" || ms.getD 1 [] == str "co.jp" then geocitiesJapanEndDate
       else geocitiesEndDate) rels hall
    have hfn : geocitiesFn ms rels = none := by
      simp only [geocitiesFn]
      rw [if_pos (by rw [hnil]; rfl)]
    simp only [applyRule, hfn]
  · intro hex
    obtain ⟨r, hr, hne⟩ := hex
    have hmem : r ∈ rels.filter (fun r => !r.ended) := by
      simp only [List.mem_filter]
      exact ⟨hr, by simp [hne]⟩
    have hupne : geocitiesUpdateRels
        (if ms.getD 1 [] == str "jp" || ms.getD 1 [] == str "co.jp" then geocitiesJapanEndDate
         else geocitiesEndDate) rels ≠ [] := by
      rw [geocitiesUpdateRels_eq]
      intro hcontra
      rw [List.map_eq_nil_iff] at hcontra
      rw [hcontra] at hmem
      simp at hmem
    have hfn : geocitiesFn ms rels = some
        { rewritten := ms.getD 0 []
          updatedRels := geocitiesUpdateRels
            (if ms.getD 1 [] == str "jp" || ms.getD 1 [] == str "co.jp" then geocitiesJapanEndDate
             else geocitiesEndDate) rels
          newURLs := []
          editNote := geocitiesEditNote } := by
      simp only [geocitiesFn]
      rw [if_neg (by simpa using hupne)]
    have happ : applyRule geocitiesFn ms u rels = some
        { rewritten := ms.getD 0 []
          updatedRels := geocitiesUpdateRels
            (if ms.getD 1 [] == str "jp" || ms.getD 1 [] == str "co.jp" then geocitiesJapanEndDate
             else geocitiesEndDate) rels
          newURLs := []
          editNote := geocitiesEditNote } := by
      simp only [applyRule, hfn]
      rw [if_neg (by
        simp only [Bool.and_eq_true, beq_iff_eq]
        rintro ⟨⟨-, h2⟩, -⟩
        exact hupne h2)]
    refine ⟨_, happ, by simp [hms], ?_, rfl⟩
    simp only
    rw [geocitiesUpdateRels_eq]
    rfl

theorem claim_C7_geocities_retirement_witness :
    ∃ res, doRewrite urlRewrites (str "http://www.geocities.com/test/") [sampleRel] = some res ∧
      res.rewritten = str "http://www.geocities.com/test/" ∧
      res.updatedRels = [{ sampleRel with ended := true, endDate := ⟨2009, 10, 26⟩ }] ∧
      res.newURLs = [] := by
  obtain ⟨res, hres, h1, h2, h3⟩ := (claim_C7_geocities_retirement
    (str "http://www.geocities.com/test/") [str "http://www.geocities.com/test/", str "com"]
    [sampleRel] (by decide)).2 ⟨sampleRel, by simp, by decide⟩
  exact ⟨res, hres, h1, by rw [h2]; decide, h3⟩

theorem applyRule_some_inv {fn : List Str → List relInfo → Option rewriteResult}
    {ms : List Str} {u : Str} {rels : List relInfo} {res : rewriteResult}
    (h : applyRule fn ms u rels = some res) : fn ms rels = some res := by
  simp only [applyRule] at h
  split at h
  · simp at h
  · next res0 hfn =>
    split at h
    · simp at h
    · simp only [Option.some.injEq] at h
      rw [hfn, h]

theorem applyRule_eq_some {fn : List Str → List relInfo → Option rewriteResult}
    {ms : List Str} {u : Str} {rels : List relInfo} {res : rewriteResult}
    (h : fn ms rels = some res)
    (hcond : (res.rewritten == u && res.updatedRels == [] && res.newURLs == []) = false) :
    applyRule fn ms u rels = some res := by
  simp only [applyRule, h]
  rw [if_neg (by rw [hcond]; simp)]

/-- C8: for every URL matching the RecMusic pattern: with an empty
relationship list the engine yields no change; any produced result keeps
the URL unchanged, end-dates every not-yet-ended relationship at
2021-10-01, and carries exactly one new `music.tower.jp` URL entity with
one new relationship (id 0, same target and link type, begin date
2021-10-01, empty end date, not ended) per original relationship —
unless the captured (type, id) pair is in the exclusion set, in which
case no new entity is produced; and with a non-empty relationship list
and a pair outside the exclusion set a result is always produced. -/
theorem claim_C8_recmusic_migration (u : Str) (ms : List Str) (rels : List relInfo)
    (h : recmusicMatch u = some ms) :
    (rels = [] → doRewrite urlRewrites u rels = none) ∧
    (∀ res, doRewrite urlRewrites u rels = some res →
      res.rewritten = u ∧
      res.updatedRels = (rels.filter (fun r => !r.ended)).map
        (fun r => { r with ended := true, endDate := (⟨2021, 10, 1⟩ : date) }) ∧
      res.newURLs =
        (if missingTowerRecordsPairs (ms.getD 1 [], ms.getD 2 []) then []
         else
           [⟨str "https://music.tower.jp/" ++ ms.getD 1 [] ++ str "/detail/" ++ ms.getD 2 [],
             rels.map (fun r =>
               { r with
                 id := 0
                 beginDate := ⟨2021, 10, 1⟩
                 endDate := ⟨0, 0, 0⟩
                 ended := false })⟩])) ∧
    (rels ≠ [] → missingTowerRecordsPairs (ms.getD 1 [], ms.getD 2 []) = false →
      ∃ res, doRewrite urlRewrites u rels = some res) := by
  obtain ⟨ty, ids, rr, hms, -⟩ := recmusicMatch_some h
  subst hms
  rw [doRewrite_rec rels h]
  simp only [List.getD_cons_zero, List.getD_cons_succ]
  refine ⟨?_, ?_, ?_⟩
  · intro hnil
    subst hnil
    simp [applyRule, recmusicFn]
  · intro res hres
    have hfn := applyRule_some_inv hres
    obtain ⟨hrne, hrw, hups, hnew, -⟩ := recmusicFn_some hfn
    simp only [List.getD_cons_zero, List.getD_cons_succ] at hrw hups hnew
    refine ⟨hrw, ?_, ?_⟩
    · rw [hups, recmusicLoop_fst]
      rfl
    · rw [hnew, recmusicLoop_snd]
      by_cases hmiss : missingTowerRecordsPairs (ty, ids) = true
      · simp [hmiss]
      · have hmiss2 : missingTowerRecordsPairs (ty, ids) = false := by simpa using hmiss
        simp only [hmiss2, Bool.false_eq_true, if_false]
        rw [if_pos (by simpa using hrne)]
        rfl
  · intro hrne hmiss
    have hloop2 : (recmusicLoop ty ids rels).2 = rels.map (fun r =>
        ({ r with
           id := 0
           beginDate := recmusicEndDate
           endDate := ⟨0, 0, 0⟩
           ended := false } : relInfo)) := by
      rw [recmusicLoop_snd]
      rw [if_neg (by simp [hmiss])]
    have hl2ne : (recmusicLoop ty ids rels).2 ≠ [] := by
      rw [hloop2]
      simpa using hrne
    have hfn : recmusicFn [u, ty, ids] rels = some
        { rewritten := u
          updatedRels := (recmusicLoop ty ids rels).1
          newURLs := [⟨str "https://music.tower.jp/" ++ ty ++ str "/detail/" ++ ids,
            (recmusicLoop ty ids rels).2⟩]
          editNote := recmusicEditNote } := by
      simp only [recmusicFn, List.getD_cons_zero, List.getD_cons_succ]
      rw [if_neg (by simpa using hrne), if_pos hl2ne]
    refine ⟨_, applyRule_eq_some hfn ?_⟩
    simp

theorem claim_C8_recmusic_migration_witness :
    ∃ res, doRewrite urlRewrites (str "https://recmusic.jp/artist/?id=2000017248")
      [sampleRel] = some res :=
  (claim_C8_recmusic_migration (str "https://recmusic.jp/artist/?id=2000017248")
    [str "https://recmusic.jp/artist/?id=2000017248", str "artist", str "2000017248"]
    [sampleRel] (by decide)).2.2 (by decide) (by decide)

/-- A matched URL equal to a canonical short-form Tidal URL forces the
captured path to be that short form. -/
theorem tidalMatch_self_short {u p kind ds : Str} (hm : tidalMatch u = some [u, p])
    (heq : u = str "https://tidal.com" ++ ('/' :: (kind ++ '/' :: ds)))
    (hk : kind ∈ tidalKinds) (hne : ds ≠ []) (hd : ds.all Char.isDigit) :
    p = '/' :: (kind ++ '/' :: ds) := by
  rw [heq, tidalMatch_canonical ds hk hne hd] at hm
  simp only [Option.some.injEq, List.cons.injEq, and_true] at hm
  exact hm.2.symm

/-- C6: for every Tidal URL whose captured path is the combined
album-plus-track form: with a recording-typed relationship present the
engine rewrites to the track form; otherwise with a release-typed
relationship present it rewrites to the album form; with neither the
engine yields nothing. -/
theorem claim_C6_tidal_disambiguation (u : Str) (ms : List Str) (rels : List relInfo)
    (a t : Str) (h : tidalMatch u = some ms)
    (hat : albumTrackMatch (ms.getD 1 []) = some (a, t)) :
    ((filterRels rels (str "recording")).length > 0 →
      ∃ res, doRewrite urlRewrites u rels = some res ∧
        res.rewritten = str "https://tidal.com/track/" ++ t) ∧
    (¬(filterRels rels (str "recording")).length > 0 →
      (filterRels rels (str "release")).length > 0 →
      ∃ res, doRewrite urlRewrites u rels = some res ∧
        res.rewritten = str "https://tidal.com/album/" ++ a) ∧
    (¬(filterRels rels (str "recording")).length > 0 →
      ¬(filterRels rels (str "release")).length > 0 →
      doRewrite urlRewrites u rels = none) := by
  obtain ⟨p, hmsp, -⟩ := tidalMatch_some h
  subst hmsp
  simp only [List.getD_cons_zero, List.getD_cons_succ] at hat
  obtain ⟨hane, hada, htne, htda, hpform⟩ := albumTrackMatch_some hat
  rw [doRewrite_tidal rels h]
  have hneq_track : u ≠ str "https://tidal.com/track/" ++ t := by
    intro heq
    have hp2 := tidalMatch_self_short h
      (by rw [heq]; rfl) (show str "track" ∈ tidalKinds by decide) htne htda
    rw [hp2, albumTrackMatch_short t (by decide) htda] at hat
    exact absurd hat (by simp)
  have hneq_album : u ≠ str "https://tidal.com/album/" ++ a := by
    intro heq
    have hp2 := tidalMatch_self_short h
      (by rw [heq]; rfl) (show str "album" ∈ tidalKinds by decide) hane hada
    rw [hp2] at hat
    have hnone : albumTrackMatch ('/' :: (str "album" ++ '/' :: a)) = none :=
      albumTrackMatch_short a (by decide) hada
    rw [hnone] at hat
    exact absurd hat (by simp)
  refine ⟨?_, ?_, ?_⟩
  · intro hrec
    have hfn : tidalFn [u, p] rels = some
        { rewritten := str "https://tidal.com/track/" ++ t
          updatedRels := []
          newURLs := []
          editNote := tidalEditNote } := by
      simp only [tidalFn, List.getD_cons_zero, List.getD_cons_succ, hat]
      rw [if_pos hrec]
    refine ⟨_, applyRule_eq_some hfn ?_, rfl⟩
    have : ((str "https://tidal.com/track/" ++ t : Str) == u) = false := by
      simp only [beq_eq_false_iff_ne, ne_eq]
      exact fun he => hneq_track he.symm
    simp [this]
  · intro hnorec hrel
    have hfn : tidalFn [u, p] rels = some
        { rewritten := str "https://tidal.com/album/" ++ a
          updatedRels := []
          newURLs := []
          editNote := tidalEditNote } := by
      simp only [tidalFn, List.getD_cons_zero, List.getD_cons_succ, hat]
      rw [if_neg hnorec, if_pos hrel]
    refine ⟨_, applyRule_eq_some hfn ?_, rfl⟩
    have : ((str "https://tidal.com/album/" ++ a : Str) == u) = false := by
      simp only [beq_eq_false_iff_ne, ne_eq]
      exact fun he => hneq_album he.symm
    simp [this]
  · intro hnorec hnorel
    have hfn : tidalFn [u, p] rels = none := by
      simp only [tidalFn, List.getD_cons_zero, List.getD_cons_succ, hat]
      rw [if_neg hnorec, if_neg hnorel]
    simp [applyRule, hfn]

theorem claim_C6_tidal_disambiguation_witness :
    ∃ res, doRewrite urlRewrites (str "https://listen.tidal.com/album/123/track/456")
        [{ sampleRel with targetType := str "recording" }] = some res ∧
      res.rewritten = str "https://tidal.com/track/" ++ str "456" := by
  refine (claim_C6_tidal_disambiguation (str "https://listen.tidal.com/album/123/track/456")
    [str "https://listen.tidal.com/album/123/track/456", str "/album/123/track/456"]
    [{ sampleRel with targetType := str "recording" }] (str "123") (str "456")
    (by decide) (by decide)).1 (by decide)

/-- At most one rule of the table matches any given URL. -/
theorem urlRewrites_unique_match :
    ∀ e1 ∈ urlRewrites, ∀ e2 ∈ urlRewrites, ∀ (u : Str) (ms1 ms2 : List Str),
      e1.1 u = some ms1 → e2.1 u = some ms2 → e1 = e2 := by
  intro e1 he1 e2 he2 u ms1 ms2 h1 h2
  simp only [urlRewrites, List.mem_cons, List.not_mem_nil, or_false] at he1 he2
  rcases he1 with he1 | he1 | he1 | he1 <;> subst he1 <;>
    rcases he2 with he2 | he2 | he2 | he2 <;> subst he2 <;>
    (try dsimp only at h1 h2) <;>
    first
    | rfl
    | simp [tidal_not_geo h1] at h2
    | simp [tidal_not_geo h2] at h1
    | simp [store_not_tidal h1] at h2
    | simp [store_not_tidal h2] at h1
    | simp [store_not_geo h1] at h2
    | simp [store_not_geo h2] at h1
    | simp [rec_not_tidal h1] at h2
    | simp [rec_not_tidal h2] at h1
    | simp [rec_not_geo h1] at h2
    | simp [rec_not_geo h2] at h1
    | simp [rec_not_store h1] at h2
    | simp [rec_not_store h2] at h1

/-- The match engine gives the same answer however the rule table is
ordered. -/
theorem doRewrite_perm_invariant :
    ∀ rm : List RulePair, rm.Perm urlRewrites →
      ∀ (u : Str) (rels : List relInfo), doRewrite rm u rels = doRewrite urlRewrites u rels := by
  intro rm hperm u rels
  by_cases hex : ∃ e ∈ urlRewrites, ∃ ms, e.1 u = some ms
  · obtain ⟨e, he, ms, hms⟩ := hex
    have huniq : ∀ e' ∈ urlRewrites, ∀ ms', e'.1 u = some ms' → e' = e :=
      fun e' he' ms' hm' => urlRewrites_unique_match e' he' e he u ms' ms hm' hms
    have h1 := doRewrite_eq_applyRule rels he hms huniq
    have he2 : e ∈ rm := hperm.mem_iff.mpr he
    have huniq2 : ∀ e' ∈ rm, ∀ ms', e'.1 u = some ms' → e' = e :=
      fun e' he' => huniq e' (hperm.mem_iff.mp he')
    have h2 := doRewrite_eq_applyRule rels he2 hms huniq2
    rw [h1, h2]
  · push_neg at hex
    have hall : ∀ e ∈ urlRewrites, e.1 u = none := by
      intro e he
      cases hc : e.1 u with
      | none => rfl
      | some m => exact absurd hc (hex e he m)
    rw [doRewrite_eq_none_of_all_none rels hall,
      doRewrite_eq_none_of_all_none rels (fun e he => hall e (hperm.mem_iff.mp he))]

/-- C3: for every URL at most one of the compiled patterns of
`urlRewrites` matches, and consequently the engine is deterministic: any
enumeration order of the rule table yields the same result. -/
theorem claim_C3_disjoint_deterministic :
    (∀ e1 ∈ urlRewrites, ∀ e2 ∈ urlRewrites, ∀ (u : Str) (ms1 ms2 : List Str),
      e1.1 u = some ms1 → e2.1 u = some ms2 → e1 = e2) ∧
    (∀ rm : List RulePair, rm.Perm urlRewrites →
      ∀ (u : Str) (rels : List relInfo),
        doRewrite rm u rels = doRewrite urlRewrites u rels) :=
  ⟨urlRewrites_unique_match, doRewrite_perm_invariant⟩

theorem claim_C3_disjoint_deterministic_witness :
    doRewrite urlRewrites.reverse (str "http://tidal.com/album/11069") [] =
      doRewrite urlRewrites (str "http://tidal.com/album/11069") [] ∧
    ((tidalMatch, tidalFn) : RulePair) = (tidalMatch, tidalFn) :=
  ⟨claim_C3_disjoint_deterministic.2 urlRewrites.reverse
      (List.reverse_perm urlRewrites) (str "http://tidal.com/album/11069") [],
   claim_C3_disjoint_deterministic.1 (tidalMatch, tidalFn) (by simp [urlRewrites])
      (tidalMatch, tidalFn) (by simp [urlRewrites]) (str "http://tidal.com/album/11069")
      [str "http://tidal.com/album/11069", str "/album/11069"]
      [str "http://tidal.com/album/11069", str "/album/11069"] (by decide) (by decide)⟩

/-! ### Re-running the engine on its own output -/

/-- A canonical short-form Tidal URL is left unchanged by the engine. -/
theorem doRewrite_canonical_none {kind : Str} (ds : Str) (rels2 : List relInfo)
    (hk : kind ∈ tidalKinds) (hne : ds ≠ []) (hd : ds.all Char.isDigit) :
    doRewrite urlRewrites (str "https://tidal.com" ++ ('/' :: (kind ++ '/' :: ds))) rels2 =
      none := by
  have hm := tidalMatch_canonical ds hk hne hd
  rw [doRewrite_tidal rels2 hm]
  have hat : albumTrackMatch ('/' :: (kind ++ '/' :: ds)) = none :=
    albumTrackMatch_short ds hk hd
  have hfn : tidalFn
      [str "https://tidal.com" ++ ('/' :: (kind ++ '/' :: ds)), '/' :: (kind ++ '/' :: ds)]
      rels2 = some
      { rewritten := str "https://tidal.com" ++ ('/' :: (kind ++ '/' :: ds))
        updatedRels := []
        newURLs := []
        editNote := tidalEditNote } := by
    simp only [tidalFn, List.getD_cons_zero, List.getD_cons_succ, hat]
  simp only [applyRule, hfn]
  rw [if_pos (by simp)]

/-- After the GeoCities updates are applied, every relationship is ended. -/
theorem applyUpdates_geo_all_ended {rels : List relInfo} {d : date} :
    ∀ x ∈ applyUpdates rels (geocitiesUpdateRels d rels), x.ended = true := by
  intro x hx
  rcases applyUpdates_mem hx with hmem | ⟨hmem, hfind⟩
  · obtain ⟨rr, -, -, hxe⟩ := geocitiesUpdateRels_mem hmem
    rw [hxe]
  · by_contra hne
    obtain ⟨u1, hu1, hid⟩ := geocitiesUpdateRels_covers hmem (by simpa using hne)
    rw [List.find?_eq_none] at hfind
    exact absurd (by simp [hid]) (hfind u1 hu1)

/-- After the Tidal Store updates are applied, every relationship is a
fixed point of the store transform. -/
theorem applyUpdates_store_fix {rels : List relInfo} :
    ∀ x ∈ applyUpdates rels (tidalStoreUpdateRels rels), tidalStoreRel x = x := by
  intro x hx
  rcases applyUpdates_mem hx with hmem | ⟨hmem, hfind⟩
  · obtain ⟨rr, -, hxr, -⟩ := tidalStoreUpdateRels_mem hmem
    rw [hxr, tidalStoreRel_idem]
  · by_contra hne
    obtain ⟨u1, hu1, hid⟩ := tidalStoreUpdateRels_covers hmem hne
    rw [List.find?_eq_none] at hfind
    exact absurd (by simp [hid]) (hfind u1 hu1)

/-- C2 (amended): the match engine is idempotent on every input whose URL
is not matched by the RecMusic migration pattern: whenever `doRewrite`
produces a result for such an input, running it again on the rewritten
URL together with the relationships after applying the result's updates
yields no change. -/
theorem claim_C2_idempotence_amended (u : Str) (rels : List relInfo) (r : rewriteResult)
    (h : doRewrite urlRewrites u rels = some r) (hnr : recmusicMatch u = none) :
    doRewrite urlRewrites r.rewritten (applyUpdates rels r.updatedRels) = none := by
  cases ht : tidalMatch u with
  | some ms =>
    rw [doRewrite_tidal rels ht] at h
    obtain ⟨p, hmsp, hshape⟩ := tidalMatch_some ht
    subst hmsp
    have hfn := applyRule_some_inv h
    cases hat : albumTrackMatch p with
    | none =>
      have hr : r = { rewritten := str "https://tidal.com" ++ p
                      updatedRels := []
                      newURLs := []
                      editNote := tidalEditNote } := by
        simp only [tidalFn, List.getD_cons_zero, List.getD_cons_succ, hat] at hfn
        simp only [Option.some.injEq] at hfn
        exact hfn.symm
      rcases hshape with ⟨kind, ds, hk, hne, hd, hp⟩ | ⟨d1, d2, h1, hd1, h2, hd2, hp⟩
      · subst hp
        rw [hr]
        exact doRewrite_canonical_none ds _ hk hne hd
      · exfalso
        have hp2 : p = str "/album/" ++ d1 ++ str "/track/" ++ d2 := by
          rw [hp]; simp only [List.append_assoc]; rfl
        rw [hp2, albumTrackMatch_long d1 d2 h1 hd1 h2 hd2] at hat
        exact absurd hat (by simp)
    | some at2 =>
      obtain ⟨a, t⟩ := at2
      obtain ⟨hane, hada, htne, htda, hpform⟩ := albumTrackMatch_some hat
      by_cases hrec : (filterRels rels (str "recording")).length > 0
      · have hr : r = { rewritten := str "https://tidal.com/track/" ++ t
                        updatedRels := []
                        newURLs := []
                        editNote := tidalEditNote } := by
          simp only [tidalFn, List.getD_cons_zero, List.getD_cons_succ, hat] at hfn
          rw [if_pos hrec] at hfn
          simp only [Option.some.injEq] at hfn
          exact hfn.symm
        rw [hr]
        show doRewrite urlRewrites
          (str "https://tidal.com" ++ ('/' :: (str "track" ++ '/' :: t))) _ = none
        exact doRewrite_canonical_none t _ (by decide) htne htda
      · by_cases hrel : (filterRels rels (str "release")).length > 0
        · have hr : r = { rewritten := str "https://tidal.com/album/" ++ a
                          updatedRels := []
                          newURLs := []
                          editNote := tidalEditNote } := by
            simp only [tidalFn, List.getD_cons_zero, List.getD_cons_succ, hat] at hfn
            rw [if_neg hrec, if_pos hrel] at hfn
            simp only [Option.some.injEq] at hfn
            exact hfn.symm
          rw [hr]
          show doRewrite urlRewrites
            (str "https://tidal.com" ++ ('/' :: (str "album" ++ '/' :: a))) _ = none
          exact doRewrite_canonical_none a _ (by decide) hane hada
        · exfalso
          simp only [tidalFn, List.getD_cons_zero, List.getD_cons_succ, hat] at hfn
          rw [if_neg hrec, if_neg hrel] at hfn
          exact absurd hfn (by simp)
  | none =>
    cases hg : geocitiesMatch u with
    | some ms =>
      rw [doRewrite_geo rels hg] at h
      obtain ⟨tld, hms⟩ := geocitiesMatch_some hg
      subst hms
      have hfn := applyRule_some_inv h
      obtain ⟨hrw, hups, -, -⟩ := geocitiesFn_some hfn
      simp only [List.getD_cons_zero] at hrw
      rw [hrw, doRewrite_geo (applyUpdates rels r.updatedRels) hg]
      have hall : ∀ x ∈ applyUpdates rels r.updatedRels, x.ended = true := by
        rw [hups]
        exact applyUpdates_geo_all_ended
      have hfn2 : geocitiesFn [u, tld] (applyUpdates rels r.updatedRels) = none := by
        simp only [geocitiesFn]
        rw [if_pos (by rw [geocitiesUpdateRels_nil _ _ hall]; rfl)]
      simp only [applyRule, hfn2]
    | none =>
      cases hst : tidalStoreMatch u with
      | some ms =>
        rw [doRewrite_store rels hst] at h
        obtain ⟨hms, -⟩ := tidalStoreMatch_some hst
        subst hms
        have hfn := applyRule_some_inv h
        obtain ⟨hrw, hups, -, -⟩ := tidalStoreFn_some hfn
        simp only [List.getD_cons_zero] at hrw
        rw [hrw, doRewrite_store (applyUpdates rels r.updatedRels) hst]
        have hfix : ∀ x ∈ applyUpdates rels r.updatedRels, tidalStoreRel x = x := by
          rw [hups]
          exact applyUpdates_store_fix
        have hfn2 : tidalStoreFn [u] (applyUpdates rels r.updatedRels) = none := by
          simp only [tidalStoreFn]
          rw [if_pos (by rw [tidalStoreUpdateRels_nil hfix]; rfl)]
        simp only [applyRule, hfn2]
      | none =>
        have hnone : doRewrite urlRewrites u rels = none := by
          simp only [urlRewrites, doRewrite, ht, hg, hst, hnr]
        rw [hnone] at h
        exact absurd h (by simp)

/-- C2 counterexample: on a RecMusic URL the engine is not idempotent —
re-running it on its own output (same URL, updated relationships) again
produces a result (it would re-create the Tower Records entity). -/
theorem claim_C2_idempotence_counterexample :
    doRewrite urlRewrites (str "https://recmusic.jp/artist/?id=1") [sampleRel] =
      some sampleRecResult ∧
    doRewrite urlRewrites sampleRecResult.rewritten
      (applyUpdates [sampleRel] sampleRecResult.updatedRels) ≠ none := by
  constructor
  · decide
  · decide

theorem claim_C2_idempotence_amended_witness :
    doRewrite urlRewrites
      ({ rewritten := str "http://www.geocities.com/test/"
         updatedRels := [{ sampleRel with ended := true, endDate := ⟨2009, 10, 26⟩ }]
         newURLs := []
         editNote := geocitiesEditNote } : rewriteResult).rewritten
      (applyUpdates [sampleRel]
        ({ rewritten := str "http://www.geocities.com/test/"
           updatedRels := [{ sampleRel with ended := true, endDate := ⟨2009, 10, 26⟩ }]
           newURLs := []
           editNote := geocitiesEditNote } : rewriteResult).updatedRels) = none :=
  claim_C2_idempotence_amended (str "http://www.geocities.com/test/") [sampleRel] _
    (by decide) (by decide)

/-! ### Reconciler key computations -/

theorem beq_append_left (pre x y : Str) : (pre ++ x == pre ++ y) = (x == y) := by
  cases h : (x == y) with
  | true =>
    have hxy : x = y := by simpa using h
    rw [hxy]
    simp
  | false =>
    have hxy : x ≠ y := by simpa using h
    simp only [beq_eq_false_iff_ne, ne_eq]
    intro hc
    exact hxy (List.append_cancel_left hc)

/-- C1 counterexample: reconciling a relationship that differs from the
original only in the ended flag does emit `link_type` (the server
requires it on every edit), contradicting the claim that it is never
emitted. -/
theorem claim_C1_minimal_diff_counterexample :
    (setRelEditVals [] [] sampleRelEnded (some sampleRel)).2 = none ∧
    getVal? (setRelEditVals [] [] sampleRelEnded (some sampleRel)).1 (str "link_type") =
      some (str "978") := by
  constructor
  · decide
  · decide

/-- C1 (amended): reconciling an edit whose desired state differs from
the original only in the ended flag and/or a non-empty end date emits
exactly the changed fields — the three `period.end_date` sub-fields when
the end date differs and is non-empty, `period.ended` when the ended
flag differs — plus the edit-mode fields `action` and `id` and the
always-re-sent `link_type`; `period.begin_date` sub-fields are never
emitted. -/
theorem claim_C1_minimal_diff_amended (pre : Str) (rel o : relInfo)
    (hlt : rel.linkTypeID = o.linkTypeID) (hbd : rel.beginDate = o.beginDate)
    (hid : rel.id = o.id) (hlp : rel.linkPhrase = o.linkPhrase)
    (hbw : rel.backward = o.backward) (hmb : rel.targetMBID = o.targetMBID)
    (htn : rel.targetName = o.targetName) (htt : rel.targetType = o.targetType)
    (hch : rel.ended ≠ o.ended ∨ (rel.endDate.empty = false ∧ rel.endDate ≠ o.endDate)) :
    ∃ v, setRelEditVals [] pre rel (some o) = (v, none) ∧
      valKeys v =
        (if rel.endDate.empty = false ∧ rel.endDate ≠ o.endDate then
          [pre ++ str "period.end_date.year", pre ++ str "period.end_date.month",
            pre ++ str "period.end_date.day"]
         else []) ++
        (if rel.ended ≠ o.ended then [pre ++ str "period.ended"] else []) ++
        [pre ++ str "action", pre ++ str "id", pre ++ str "link_type"] := by
  have hne : rel ≠ o := by
    rcases hch with h | ⟨-, h⟩
    · exact fun he => h (by rw [he])
    · exact fun he => h (by rw [he])
  have hcLT : decide (rel.linkTypeID ≠ o.linkTypeID) = false := by simp [hlt]
  have hcBD : decide (rel.beginDate ≠ o.beginDate) = false := by simp [hbd]
  simp only [setRelEditVals, setRelEditValsBody]
  rw [if_neg hne]
  simp only [hcLT, hcBD, Bool.and_false, Bool.false_eq_true, if_false]
  have hYM : (str "period.end_date.year" == str "period.end_date.month") = false := by decide
  have hYD : (str "period.end_date.year" == str "period.end_date.day") = false := by decide
  have hMD : (str "period.end_date.month" == str "period.end_date.day") = false := by decide
  have hYE : (str "period.end_date.year" == str "period.ended") = false := by decide
  have hME : (str "period.end_date.month" == str "period.ended") = false := by decide
  have hDE : (str "period.end_date.day" == str "period.ended") = false := by decide
  have hYA : (str "period.end_date.year" == str "action") = false := by decide
  have hMA : (str "period.end_date.month" == str "action") = false := by decide
  have hDA : (str "period.end_date.day" == str "action") = false := by decide
  have hEA : (str "period.ended" == str "action") = false := by decide
  have hYI : (str "period.end_date.year" == str "id") = false := by decide
  have hMI : (str "period.end_date.month" == str "id") = false := by decide
  have hDI : (str "period.end_date.day" == str "id") = false := by decide
  have hEI : (str "period.ended" == str "id") = false := by decide
  have hAI : (str "action" == str "id") = false := by decide
  have hYL : (str "period.end_date.year" == str "link_type") = false := by decide
  have hML : (str "period.end_date.month" == str "link_type") = false := by decide
  have hDL : (str "period.end_date.day" == str "link_type") = false := by decide
  have hEL : (str "period.ended" == str "link_type") = false := by decide
  have hAL : (str "action" == str "link_type") = false := by decide
  have hIL : (str "id" == str "link_type") = false := by decide
  have hn10 : (((1 : Nat)) == 0) = false := by decide
  have hMapNone : (Option.map (Prod.snd) (none : Option (Str × Str))).isSome = false := rfl
  have hn30 : (((3 : Nat)) == 0) = false := by decide
  have hn40 : (((4 : Nat)) == 0) = false := by decide
  by_cases hE : rel.ended = o.ended
  · have hcE : decide (rel.ended ≠ o.ended) = false := by simp [hE]
    have hD : rel.endDate.empty = false ∧ rel.endDate ≠ o.endDate := by
      rcases hch with h | h
      · exact absurd hE h
      · exact h
    have hcD : (!rel.endDate.empty && decide (rel.endDate ≠ o.endDate)) = true := by
      simp [hD.1, hD.2]
    simp only [hcE, hcD, Bool.false_eq_true, if_false, if_true, setVal, beq_append_left,
      hYM, hYD, hMD, hYA, hMA, hDA, hYI, hMI, hDI, hAI, hYL, hML, hDL, hAL, hIL,
      getVal?, List.find?, List.length_cons, List.length_nil, hn30, hMapNone]
    refine ⟨_, rfl, ?_⟩
    rw [if_pos hD, if_neg (fun hc => hc hE)]
    simp [valKeys]
  · have hcE : decide (rel.ended ≠ o.ended) = true := by simp [hE]
    by_cases hD : rel.endDate.empty = false ∧ rel.endDate ≠ o.endDate
    · have hcD : (!rel.endDate.empty && decide (rel.endDate ≠ o.endDate)) = true := by
        simp [hD.1, hD.2]
      simp only [hcE, hcD, Bool.false_eq_true, if_false, if_true, setVal, beq_append_left,
        hYM, hYD, hMD, hYE, hME, hDE, hYA, hMA, hDA, hEA, hYI, hMI, hDI, hEI, hAI,
        hYL, hML, hDL, hEL, hAL, hIL,
        getVal?, List.find?, List.length_cons, List.length_nil, hn40, hMapNone]
      refine ⟨_, rfl, ?_⟩
      rw [if_pos hD, if_pos hE]
      simp [valKeys]
    · have hcD : (!rel.endDate.empty && decide (rel.endDate ≠ o.endDate)) = false := by
        rcases Decidable.not_and_iff_or_not.mp hD with h | h
        · have : rel.endDate.empty = true := by
            cases hq : rel.endDate.empty
            · exact absurd hq h
            · rfl
          simp [this]
        · have : rel.endDate = o.endDate := Decidable.not_not.mp h
          simp [this]
      simp only [hcE, hcD, Bool.false_eq_true, if_false, if_true, setVal, beq_append_left,
        hEA, hEI, hAI, hEL, hAL, hIL,
        getVal?, List.find?, List.length_cons, List.length_nil, hn10, hMapNone]
      refine ⟨_, rfl, ?_⟩
      rw [if_neg hD, if_pos hE]
      simp [valKeys]

/-! ### Key accounting for the new-entity loop -/

theorem length_setVal_of_not_mem {v : Vals} {k : Str} (x : Str) (h : k ∉ valKeys v) :
    (setVal v k x).length = v.length + 1 := by
  rw [setVal_of_not_mem x h]
  simp

theorem stage3_length (v : Vals) (c : Prop) [Decidable c] (k1 k2 k3 x1 x2 x3 : Str) :
    v.length ≤ (if c then setVal (setVal (setVal v k1 x1) k2 x2) k3 x3 else v).length := by
  by_cases hc : c
  · rw [if_pos hc]
    calc v.length ≤ (setVal v k1 x1).length := length_setVal_ge _ _ _
      _ ≤ (setVal (setVal v k1 x1) k2 x2).length := length_setVal_ge _ _ _
      _ ≤ _ := length_setVal_ge _ _ _
  · rw [if_neg hc]

theorem stage1_length (v : Vals) (c : Prop) [Decidable c] (k1 x1 : Str) :
    v.length ≤ (if c then setVal v k1 x1 else v).length := by
  by_cases hc : c
  · rw [if_pos hc]
    exact length_setVal_ge _ _ _
  · rw [if_neg hc]

theorem stage3_keys (v : Vals) (c : Prop) [Decidable c] (k1 k2 k3 x1 x2 x3 : Str) :
    ∀ k ∈ valKeys (if c then setVal (setVal (setVal v k1 x1) k2 x2) k3 x3 else v),
      k ∈ valKeys v ∨ k = k1 ∨ k = k2 ∨ k = k3 := by
  intro k hk
  by_cases hc : c
  · rw [if_pos hc] at hk
    rcases valKeys_setVal _ _ _ k hk with hk | hk
    · rcases valKeys_setVal _ _ _ k hk with hk | hk
      · rcases valKeys_setVal _ _ _ k hk with hk | hk
        · exact Or.inl hk
        · exact Or.inr (Or.inl hk)
      · exact Or.inr (Or.inr (Or.inl hk))
    · exact Or.inr (Or.inr (Or.inr hk))
  · rw [if_neg hc] at hk
    exact Or.inl hk

theorem stage1_keys (v : Vals) (c : Prop) [Decidable c] (k1 x1 : Str) :
    ∀ k ∈ valKeys (if c then setVal v k1 x1 else v), k ∈ valKeys v ∨ k = k1 := by
  intro k hk
  by_cases hc : c
  · rw [if_pos hc] at hk
    exact valKeys_setVal _ _ _ k hk
  · rw [if_neg hc] at hk
    exact Or.inl hk

/-- Witness for C1 (amended) at a concrete edit: ending `sampleRel`
under prefix "p." emits exactly `period.ended`, `action`, `id` and
`link_type`. -/
theorem claim_C1_minimal_diff_amended_witness :
    ∃ v, setRelEditVals [] (str "p.") sampleRelEnded (some sampleRel) = (v, none) ∧
      valKeys v =
        (if sampleRelEnded.endDate.empty = false ∧ sampleRelEnded.endDate ≠ sampleRel.endDate then
          [str "p." ++ str "period.end_date.year", str "p." ++ str "period.end_date.month",
            str "p." ++ str "period.end_date.day"]
         else []) ++
        (if sampleRelEnded.ended ≠ sampleRel.ended then [str "p." ++ str "period.ended"] else []) ++
        [str "p." ++ str "action", str "p." ++ str "id", str "p." ++ str "link_type"] :=
  claim_C1_minimal_diff_amended (str "p.") sampleRelEnded sampleRel (by decide) (by decide)
    (by decide) (by decide) (by decide) (by decide) (by decide) (by decide)
    (Or.inl (by decide))

/-- Two keys with distinct loop indices never collide: the decimal index
is recovered as the maximal digit run before the following dot. -/
theorem relPre_inj {i j : Nat} {a b : Str} (h : relPre i ++ a = relPre j ++ b) :
    i = j ∧ a = b := by
  have e : ∀ (n : Nat) (x : Str),
      relPre n ++ x = str "rel-editor.rels." ++ (natToStr n ++ '.' :: x) := by
    intro n x
    show (str "rel-editor.rels." ++ natToStr n ++ str ".") ++ x = _
    rw [List.append_assoc, List.append_assoc]
    rfl
  rw [e i a, e j b] at h
  have h2 : natToStr i ++ '.' :: a = natToStr j ++ '.' :: b := List.append_cancel_left h
  have hdi := natToStr_all_digits i
  have hdj := natToStr_all_digits j
  have ht : natToStr i = natToStr j := by
    have h3 := congrArg (List.takeWhile Char.isDigit) h2
    rwa [takeWhile_append_cons '.' a hdi (by decide),
      takeWhile_append_cons '.' b hdj (by decide)] at h3
  have hab : a = b := by
    have h4 := congrArg (List.dropWhile Char.isDigit) h2
    rw [dropWhile_append_cons '.' a hdi (by decide),
      dropWhile_append_cons '.' b hdj (by decide)] at h4
    simpa using h4
  exact ⟨natToStr_inj ht, hab⟩

/-- Inserting `link_type` under a fresh prefix grows the map and adds
only a reconciler key. -/
theorem grows_base (vals : Vals) (pre x : Str)
    (hfresh : (pre ++ str "link_type") ∉ valKeys vals) :
    vals.length < (setVal vals (pre ++ str "link_type") x).length ∧
    ∀ k ∈ valKeys (setVal vals (pre ++ str "link_type") x),
      k ∈ valKeys vals ∨ ∃ s ∈ relEditSuffixes, k = pre ++ s := by
  constructor
  · rw [length_setVal_of_not_mem _ hfresh]
    omega
  · intro k hk
    rcases valKeys_setVal _ _ _ k hk with hk | hk
    · exact Or.inl hk
    · exact Or.inr ⟨str "link_type", by decide, hk⟩

/-- Each further reconciler write preserves growth and reconciler-only
key additions. -/
theorem grows_setVal (s x : Str) (hs : s ∈ relEditSuffixes) {pre : Str} {vals v : Vals}
    (h : vals.length < v.length ∧
      ∀ k ∈ valKeys v, k ∈ valKeys vals ∨ ∃ t ∈ relEditSuffixes, k = pre ++ t) :
    vals.length < (setVal v (pre ++ s) x).length ∧
    ∀ k ∈ valKeys (setVal v (pre ++ s) x),
      k ∈ valKeys vals ∨ ∃ t ∈ relEditSuffixes, k = pre ++ t := by
  obtain ⟨hlen, hkeys⟩ := h
  constructor
  · exact lt_of_lt_of_le hlen (length_setVal_ge _ _ _)
  · intro k hk
    rcases valKeys_setVal _ _ _ k hk with hk | hk
    · exact hkeys k hk
    · exact Or.inr ⟨s, hs, hk⟩

/-- The tail of the creation path of `setRelEditValsBody`: since the map
grew, the unsupported-update branch is skipped and `action` is added. -/
theorem chain_final {pre : Str} {vals v4 : Vals} (rel : relInfo)
    (hg : vals.length < v4.length ∧
      ∀ k ∈ valKeys v4, k ∈ valKeys vals ∨ ∃ s ∈ relEditSuffixes, k = pre ++ s) :
    ((if (v4.length == vals.length) = true then (v4, some (editErr.unsupportedUpdate rel))
        else (setVal v4 (pre ++ str "action") (str "add"), none)).2 = none ∧
      ∀ k ∈ valKeys (if (v4.length == vals.length) = true
          then (v4, some (editErr.unsupportedUpdate rel))
          else (setVal v4 (pre ++ str "action") (str "add"), none)).1,
        k ∈ valKeys vals ∨ ∃ s ∈ relEditSuffixes, k = pre ++ s) := by
  obtain ⟨hlen, hkeys⟩ := hg
  have hne : (v4.length == vals.length) = false := by
    simp only [beq_eq_false_iff_ne, ne_eq]
    omega
  rw [hne]
  simp only [Bool.false_eq_true, if_false]
  constructor
  · trivial
  · intro k hk
    rcases valKeys_setVal _ _ _ k hk with hk | hk
    · exact hkeys k hk
    · exact Or.inr ⟨str "action", by decide, hk⟩

/-- The creation path of the reconciler (orig = nil, id 0, fresh
prefix): it succeeds and adds only keys of the forms in
`relEditSuffixes` under the prefix. -/
theorem setRelEditVals_none_ok (vals : Vals) (pre : Str) (rel : relInfo)
    (hid : rel.id = 0) (hfresh : (pre ++ str "link_type") ∉ valKeys vals) :
    (setRelEditVals vals pre rel none).2 = none ∧
    ∀ k ∈ valKeys (setRelEditVals vals pre rel none).1,
      k ∈ valKeys vals ∨ ∃ s ∈ relEditSuffixes, k = pre ++ s := by
  simp only [setRelEditVals]
  rw [if_neg (fun hne => hne hid)]
  simp only [setRelEditValsBody]
  cases hb : rel.beginDate.empty <;> cases he : rel.endDate.empty <;> cases hd : rel.ended <;>
    simp only [hb, he, hd, Bool.not_true, Bool.not_false, Bool.false_and, Bool.true_and,
      Bool.and_true, Bool.and_false, Bool.false_eq_true, eq_self_iff_true, if_true, if_false] <;>
    (refine chain_final rel ?_
     repeat
       first
         | exact grows_base _ _ _ hfresh
         | refine grows_setVal _ _ (by decide) ?_)

/-- Keys produced by earlier loop iterations never collide with the
current iteration's prefix. -/
theorem inv_fresh {vals : Vals} {i : Nat}
    (hINV : ∀ k ∈ valKeys vals, ∃ j, j < i ∧ ∃ s, k = relPre j ++ s) (t : Str) :
    (relPre i ++ t) ∉ valKeys vals := by
  intro hmem
  rcases hINV _ hmem with ⟨j, hj, s, hs⟩
  rcases relPre_inj hs with ⟨hij, -⟩
  omega

/-- An iteration of the new-entity loop on a misdirected relationship
(id 0) aborts with the direction error having written only reconciler
keys under its prefix. -/
theorem newRelStep_bad (vals : Vals) (pre url : Str) (rel : relInfo)
    (hid : rel.id = 0) (hbad : badDirection rel = true)
    (hfresh : (pre ++ str "link_type") ∉ valKeys vals) :
    (newRelStep vals pre url rel).2 = some (.incorrectDirection rel) ∧
    ∀ k ∈ valKeys (newRelStep vals pre url rel).1,
      k ∈ valKeys vals ∨ ∃ s ∈ relEditSuffixes, k = pre ++ s := by
  obtain ⟨hok, hkeys⟩ := setRelEditVals_none_ok vals pre rel hid hfresh
  rcases hsv : setRelEditVals vals pre rel none with ⟨v1, e⟩
  rw [hsv] at hok hkeys
  dsimp only at hok
  subst hok
  simp only [newRelStep, hsv, hbad, if_true]
  exact ⟨trivial, hkeys⟩

/-- An iteration of the new-entity loop on a well-formed relationship
(id 0, correct direction) succeeds and writes only keys under its
prefix. -/
theorem newRelStep_ok (vals : Vals) (pre url : Str) (rel : relInfo)
    (hid : rel.id = 0) (hdir : badDirection rel = false)
    (hfresh : (pre ++ str "link_type") ∉ valKeys vals) :
    (newRelStep vals pre url rel).2 = none ∧
    ∀ k ∈ valKeys (newRelStep vals pre url rel).1,
      k ∈ valKeys vals ∨ ∃ s, k = pre ++ s := by
  obtain ⟨hok, hkeys⟩ := setRelEditVals_none_ok vals pre rel hid hfresh
  rcases hsv : setRelEditVals vals pre rel none with ⟨v1, e⟩
  rw [hsv] at hok hkeys
  dsimp only at hok
  subst hok
  have hkeys1 : ∀ k ∈ valKeys v1, k ∈ valKeys vals ∨ ∃ s, k = pre ++ s := by
    intro k hk
    rcases hkeys k hk with hk | ⟨s, -, hk⟩
    · exact Or.inl hk
    · exact Or.inr ⟨s, hk⟩
  cases hbw : rel.backward <;>
    simp only [newRelStep, hsv, hdir, hbw, Bool.false_eq_true, if_false, if_true] <;>
    refine ⟨trivial, ?_⟩ <;>
    intro k hk <;>
    (rcases valKeys_setVal _ _ _ k hk with hk | hk
     rcases valKeys_setVal _ _ _ k hk with hk | hk
     rcases valKeys_setVal _ _ _ k hk with hk | hk
     rcases valKeys_setVal _ _ _ k hk with hk | hk) <;>
    first
      | exact hkeys1 k hk
      | exact Or.inr ⟨_, by rw [hk, List.append_assoc]⟩

/-- The new-entity loop aborts at the first misdirected relationship
with its direction error, and at that point no entity parameter for
that relationship has been written. -/
theorem newURLRelsLoop_bad (url : Str) (rel : relInfo)
    (hid : rel.id = 0) (hbad : badDirection rel = true) :
    ∀ (before : List relInfo) (vals : Vals) (i : Nat) (after : List relInfo),
      (∀ r ∈ before, r.id = 0 ∧ badDirection r = false) →
      (∀ k ∈ valKeys vals, ∃ j, j < i ∧ ∃ s, k = relPre j ++ s) →
      (newURLRelsLoop url vals i (before ++ rel :: after)).2 =
        some (.incorrectDirection rel) ∧
      ∀ s, s ∉ relEditSuffixes →
        getVal? (newURLRelsLoop url vals i (before ++ rel :: after)).1
          (relPre (i + before.length) ++ s) = none := by
  intro before
  induction before with
  | nil =>
    intro vals i after _ hINV
    obtain ⟨hstep, hkeys⟩ :=
      newRelStep_bad vals (relPre i) url rel hid hbad (inv_fresh hINV _)
    have hloop : newURLRelsLoop url vals i ([] ++ rel :: after) =
        ((newRelStep vals (relPre i) url rel).1, some (.incorrectDirection rel)) := by
      simp only [List.nil_append, newURLRelsLoop]
      rcases hns : newRelStep vals (relPre i) url rel with ⟨v1, e⟩
      rw [hns] at hstep
      dsimp only at hstep
      subst hstep
      rfl
    rw [hloop]
    refine ⟨rfl, ?_⟩
    intro s hs
    rw [getVal?_eq_none_iff]
    intro hmem
    simp only [List.length_nil, Nat.add_zero] at hmem
    rcases hkeys _ hmem with hk | ⟨s', hs', hk⟩
    · rcases hINV _ hk with ⟨j, hj, s'', hs''⟩
      rcases relPre_inj hs'' with ⟨hij, -⟩
      omega
    · exact hs ((relPre_inj hk).2 ▸ hs')
  | cons b rest ih =>
    intro vals i after hbefore hINV
    have hb := hbefore b (List.mem_cons_self _ _)
    obtain ⟨hstep, hkeys⟩ :=
      newRelStep_ok vals (relPre i) url b hb.1 hb.2 (inv_fresh hINV _)
    rcases hns : newRelStep vals (relPre i) url b with ⟨v1, e⟩
    rw [hns] at hstep hkeys
    dsimp only at hstep
    subst hstep
    have hINV1 : ∀ k ∈ valKeys v1, ∃ j, j < i + 1 ∧ ∃ s, k = relPre j ++ s := by
      intro k hk
      rcases hkeys k hk with hk | ⟨s, hk⟩
      · rcases hINV _ hk with ⟨j, hj, s, hs⟩
        exact ⟨j, by omega, s, hs⟩
      · exact ⟨i, by omega, s, hk⟩
    have hrec := ih v1 (i + 1) after (fun r hr => hbefore r (List.mem_cons_of_mem _ hr)) hINV1
    have hloop : newURLRelsLoop url vals i ((b :: rest) ++ rel :: after) =
        newURLRelsLoop url v1 (i + 1) (rest ++ rel :: after) := by
      simp only [List.cons_append, newURLRelsLoop, hns, List.append_eq]
    rw [hloop]
    have harith : i + 1 + rest.length = i + (b :: rest).length := by
      simp only [List.length_cons]
      omega
    rw [harith] at hrec
    exact hrec

/-- C4 counterexample: a misdirected relationship whose id is nonzero
(id 5) makes the new-entity loop fail with the id-validity error, not a
direction error — the reconciler's id check (url.go line 77) runs
before the direction check (url.go line 82). -/
theorem claim_C4_direction_guard_counterexample :
    (newURLVals ⟨str "https://example.org/", [sampleBadRel]⟩).2 =
      some (editErr.invalidRel 5) ∧
    some (editErr.invalidRel 5) ≠ some (editErr.incorrectDirection sampleBadRel) := by
  decide

/-- C4 (amended): in the new-entity creation loop, a relationship with
id 0 that violates the direction order aborts the loop with the
incorrect-direction error for it, provided every relationship before it
was accepted (id 0 and correct direction); at that point none of its
entity parameters (keys under its prefix outside the reconciler's field
set, such as `entity.N.url`) has been written. Without the id-0
restriction the claim fails: the id-validity check precedes the
direction check. -/
theorem claim_C4_direction_guard_amended (url : Str) (before after : List relInfo)
    (rel : relInfo)
    (hbefore : ∀ r ∈ before, r.id = 0 ∧ badDirection r = false)
    (hid : rel.id = 0) (hbad : badDirection rel = true) :
    (newURLVals ⟨url, before ++ rel :: after⟩).2 = some (.incorrectDirection rel) ∧
    ∀ s, s ∉ relEditSuffixes →
      getVal? (newURLVals ⟨url, before ++ rel :: after⟩).1 (relPre before.length ++ s) =
        none := by
  have h := newURLRelsLoop_bad url rel hid hbad before [] 0 after hbefore
    (fun k hk => absurd hk (List.not_mem_nil k))
  rw [Nat.zero_add] at h
  exact h

/-- Witness for C4 (amended): a single misdirected creation (id 0)
yields the direction error with no entity parameters written. -/
theorem claim_C4_direction_guard_amended_witness :
    (newURLVals ⟨str "https://example.org/", [sampleBadRelZero]⟩).2 =
      some (editErr.incorrectDirection sampleBadRelZero) ∧
    getVal? (newURLVals ⟨str "https://example.org/", [sampleBadRelZero]⟩).1
      (relPre 0 ++ str "entity.0.url") = none := by
  have h := claim_C4_direction_guard_amended (str "https://example.org/") [] []
    sampleBadRelZero (fun r hr => absurd hr (List.not_mem_nil r)) (by decide) (by decide)
  exact ⟨h.1, h.2 (str "entity.0.url") (by decide)⟩
